import Mathlib

/-!
# ContextBundler: a verification development

This file shallowly embeds the two scripts of the ContextBundler repository,
`bundle.py` (serializing a project tree into a single delimited text artifact)
and `apply.py` (parsing such an artifact back into file writes), and proves
properties of the embedding.

Conventions of the embedding:
* Python strings are `List Char`; `str s` converts a Lean string literal.
* The three module-level regular expressions of `apply.py`
  (`FILE_BLOCK_PATTERN`, `CODE_FENCE_PATTERN`, `FALLBACK_PATTERN`) are
  embedded via a small backtracking matcher (`matchItems` / `findAll`).
  Every quantifier occurring in those three patterns applies to a single
  character class (`\s*`, `\w*`, `.+?`, `.*?`, `[^...]+`, `\w+`), so the
  matcher supports exactly: literals, greedy/lazy star/plus over a character
  class, the multiline anchors `^` and `$`, and capturing groups.  Matching
  order is Python's leftmost search with greedy quantifiers trying the
  longest repetition first and lazy quantifiers the shortest, backtracking
  on failure of the continuation; `findAll` mirrors `re.finditer`
  (non-overlapping matches, scanning resumes at the end of each match,
  advancing one character past a zero-width match).
* Character classes follow the ASCII reading of `\s` and `\w`; the scripts
  only ever feed them project text.
* `os.path` functions are modelled for POSIX (`os.sep = '/'`), following the
  CPython `posixpath` implementations; `os.path.abspath` takes the process
  working directory as an explicit `cwd` parameter.
-/

def str (s : String) : List Char := s.toList

/-- Python `\s` on ASCII text: space, tab, newline, carriage return,
vertical tab, form feed. -/
def isWs (c : Char) : Bool :=
  c = ' ' ∨ c = '\t' ∨ c = '\n' ∨ c = '\r' ∨ c = '\x0b' ∨ c = '\x0c'

/-- Python `\w` on ASCII text: letters, digits, underscore. -/
def isWordChar (c : Char) : Bool :=
  ('a' ≤ c ∧ c ≤ 'z') ∨ ('A' ≤ c ∧ c ≤ 'Z') ∨ ('0' ≤ c ∧ c ≤ '9') ∨ c = '_'

/-- One item of a compiled pattern. -/
inductive RItem where
  /-- a literal string -/
  | lit (cs : List Char)
  /-- a quantified character class: `plus = true` for `+` (else `*`),
  `lzy = true` for a lazy quantifier (else greedy) -/
  | cls (p : Char → Bool) (plus : Bool) (lzy : Bool)
  /-- `^` under `re.MULTILINE`: start of string or just after a newline -/
  | bol
  /-- `$` under `re.MULTILINE`: end of string or just before a newline -/
  | eol
  /-- opening parenthesis of capture group `n` -/
  | grpOpen (n : Nat)
  /-- closing parenthesis of capture group `n` -/
  | grpClose (n : Nat)

/-- Captured groups of one match: group number paired with captured text. -/
abbrev Caps := List (Nat × List Char)

/-- Matcher state: the remaining input, whether the current position is at
the beginning of a line, the currently open groups (group number paired with
the remaining input at the opening parenthesis), and the captures recorded
so far. -/
structure MState where
  rest : List Char
  bol : Bool
  opens : List (Nat × List Char)
  caps : Caps
deriving DecidableEq

/-- Advance the state by `k` characters. -/
def MState.consume (st : MState) (k : Nat) : MState :=
  { st with
    rest := st.rest.drop k
    bol := match (st.rest.take k).getLast? with
           | some c => c = '\n'
           | none => st.bol }

/-- Backtracking matcher for a compiled pattern at the current position.
Returns the final state of the first (in Python's backtracking order)
complete match, or `none`. -/
def matchItems : List RItem → MState → Option MState
  | [], st => some st
  | .lit cs :: items, st =>
      if cs.isPrefixOf st.rest then
        matchItems items
          { st with
            rest := st.rest.drop cs.length
            bol := match cs.getLast? with
                   | some c => c = '\n'
                   | none => st.bol }
      else none
  | .cls p plus lzy :: items, st =>
      let run := (st.rest.takeWhile p).length
      let lo := if plus then 1 else 0
      let ks := if lzy then List.range' lo (run + 1 - lo)
                else (List.range' lo (run + 1 - lo)).reverse
      ks.findSome? fun k => matchItems items (st.consume k)
  | .bol :: items, st => if st.bol then matchItems items st else none
  | .eol :: items, st =>
      match st.rest with
      | [] => matchItems items st
      | c :: _ => if c = '\n' then matchItems items st else none
  | .grpOpen n :: items, st =>
      matchItems items { st with opens := (n, st.rest) :: st.opens }
  | .grpClose n :: items, st =>
      let stored := ((st.opens.lookup n).getD st.rest)
      matchItems items
        { st with caps := st.caps ++ [(n, stored.take (stored.length - st.rest.length))] }

/-- Attempt a match exactly at the start of `s` (`b` records whether this
position begins a line). -/
def tryMatch (pat : List RItem) (s : List Char) (b : Bool) : Option MState :=
  matchItems pat ⟨s, b, [], []⟩

/-- Scanning loop of `re.finditer`; the fuel argument only forces
structural recursion (it strictly dominates the number of scanning steps,
each of which advances at least one character). -/
def findAllAux (pat : List RItem) : Nat → List Char → Bool → List Caps
  | 0, _, _ => []
  | fuel + 1, s, b =>
    match tryMatch pat s b with
    | some st =>
        if st.rest.length < s.length then
          st.caps :: findAllAux pat fuel st.rest st.bol
        else
          st.caps :: (match s with
                      | [] => []
                      | c :: t => findAllAux pat fuel t (c = '\n'))
    | none =>
        match s with
        | [] => []
        | c :: t => findAllAux pat fuel t (c = '\n')

/-- `re.finditer`: all non-overlapping matches, scanning left to right. -/
def findAll (pat : List RItem) (s : List Char) (b : Bool) : List Caps :=
  findAllAux pat (s.length + 1) s b

/-- `match.group n` of one recorded match. -/
def getGroup (n : Nat) (m : Caps) : List Char := (m.lookup n).getD []

def wsStar : RItem := .cls isWs false false
def wordStar : RItem := .cls isWordChar false false
def anyPlusLazy : RItem := .cls (fun _ => true) true true
def anyStarLazy : RItem := .cls (fun _ => true) false true

/-- `apply.py` lines 13–18: the strict file-block grammar,
`^={5}\s*FILE:\s*(.+?)\s*={5}\s*\n(.*?)^={5}\s*END FILE:\s*(.+?)\s*={5}`
with `re.MULTILINE | re.DOTALL`. -/
def FILE_BLOCK_PATTERN : List RItem :=
  [.bol, .lit (str "====="), wsStar, .lit (str "FILE:"), wsStar,
   .grpOpen 1, anyPlusLazy, .grpClose 1,
   wsStar, .lit (str "====="), wsStar, .lit (str "\n"),
   .grpOpen 2, anyStarLazy, .grpClose 2,
   .bol, .lit (str "====="), wsStar, .lit (str "END FILE:"), wsStar,
   .grpOpen 3, anyPlusLazy, .grpClose 3,
   wsStar, .lit (str "=====")]

/-- `apply.py` lines 20–23: `^```\w*\n(.*?)^```\s*$` with
`re.MULTILINE | re.DOTALL`. -/
def CODE_FENCE_PATTERN : List RItem :=
  [.bol, .lit (str "```"), wordStar, .lit (str "\n"),
   .grpOpen 1, anyStarLazy, .grpClose 1,
   .bol, .lit (str "```"), wsStar, .eol]

/-- `apply.py` lines 25–31: the fallback grammar
`` `([^`\n]+\.\w+)`\s*\n```\w*\n(.*?)\n``` `` with `re.DOTALL`. -/
def FALLBACK_PATTERN : List RItem :=
  [.lit (str "`"),
   .grpOpen 1, .cls (fun c => ¬(c = '`' ∨ c = '\n')) true false,
   .lit (str "."), .cls isWordChar true false, .grpClose 1,
   .lit (str "`"), wsStar, .lit (str "\n"),
   .lit (str "```"), wordStar, .lit (str "\n"),
   .grpOpen 2, anyStarLazy, .grpClose 2,
   .lit (str "\n```")]

/-- Python `str.strip()` (ASCII whitespace). -/
def pyStrip (s : List Char) : List Char :=
  ((s.dropWhile isWs).reverse.dropWhile isWs).reverse

/-- `apply.py` line 77: `content.replace("\r\n", "\n").replace("\r", "\n")`
(a single left-to-right scan realizes both replacements). -/
def normalizeLineEndings : List Char → List Char
  | [] => []
  | '\r' :: '\n' :: rest => '\n' :: normalizeLineEndings rest
  | '\r' :: rest => '\n' :: normalizeLineEndings rest
  | c :: rest => c :: normalizeLineEndings rest

/-- Python `s.endswith(t)`. -/
def pyEndsWith (s t : List Char) : Bool := t.isSuffixOf s

/-- `apply.py` lines 70–80: the per-block content post-processing of the
primary grammar — keep only the interior of the first fenced code region if
one is present, otherwise strip one leading newline; then normalize line
endings; then collapse a trailing blank line. -/
def processContent (content : List Char) : List Char :=
  let content :=
    match (findAll CODE_FENCE_PATTERN content true).head? with
    | some fm => getGroup 1 fm
    | none =>
        match content with
        | '\n' :: t => t
        | _ => content
  let content := normalizeLineEndings content
  if pyEndsWith content (str "\n\n") then content.dropLast else content

/-- `apply.py` lines 61–82: the primary-grammar phase of
`parse_file_blocks` — one `(path, content)` pair per `FILE_BLOCK_PATTERN`
match whose two marker paths agree after stripping. -/
def primaryBlocks (text : List Char) : List (List Char × List Char) :=
  (findAll FILE_BLOCK_PATTERN text true).foldl
    (fun blocks m =>
      let openPath := pyStrip (getGroup 1 m)
      let content := getGroup 2 m
      let closePath := pyStrip (getGroup 3 m)
      if openPath = closePath then blocks ++ [(openPath, processContent content)]
      else blocks)
    []

/-- `apply.py` lines 87–91: the fallback-grammar phase. -/
def fallbackBlocks (text : List Char) : List (List Char × List Char) :=
  (findAll FALLBACK_PATTERN text true).foldl
    (fun blocks m => blocks ++ [(pyStrip (getGroup 1 m), getGroup 2 m)])
    []

/-- `apply.py` lines 58–92: `parse_file_blocks`. -/
def parse_file_blocks (text : List Char) : List (List Char × List Char) :=
  let blocks := primaryBlocks text
  if blocks.isEmpty then fallbackBlocks text else blocks

/-! ## `os.path` (POSIX model) -/

/-- Python `s.split('/')` (splits at every separator, keeping empties). -/
def splitOnSep (p : List Char) : List (List Char) := p.splitOn '/'

/-- `os.path.isabs` on POSIX: starts with a slash. -/
def isabs (p : List Char) : Bool :=
  match p with
  | '/' :: _ => true
  | _ => false

/-- One iteration of the component loop of `posixpath.normpath`: drop empty
and `.` components, append ordinary components, and resolve `..` against
the accumulated components (keeping a leading run of `..` when the path is
relative). -/
def normpathStep (initialSlashes : Nat) (acc : List (List Char)) (comp : List Char) :
    List (List Char) :=
  if comp = [] ∨ comp = str "." then acc
  else if comp ≠ str ".." ∨ (initialSlashes = 0 ∧ acc = []) ∨
          acc.getLast? = some (str "..") then acc ++ [comp]
  else if acc ≠ [] then acc.dropLast
  else acc

/-- `posixpath.normpath`, transcribed from CPython: split on the separator,
run the component loop, and rebuild, preserving one (or exactly two)
leading slashes. -/
def normpath (p : List Char) : List Char :=
  if p = [] then str "." else
  let initialSlashes : Nat :=
    if (str "/").isPrefixOf p then
      (if (str "//").isPrefixOf p ∧ ¬(str "///").isPrefixOf p then 2 else 1)
    else 0
  let newComps := (splitOnSep p).foldl (normpathStep initialSlashes) []
  let out := List.replicate initialSlashes '/' ++ List.intercalate (str "/") newComps
  if out = [] then str "." else out

/-- `posixpath.join` restricted to two arguments (the only form used). -/
def joinPath (a b : List Char) : List Char :=
  if isabs b then b
  else if a = [] ∨ a.getLast? = some '/' then a ++ b
  else a ++ '/' :: b

/-- `posixpath.abspath`, with the process working directory passed
explicitly. -/
def abspath (cwd p : List Char) : List Char :=
  if isabs p then normpath p else normpath (joinPath cwd p)

/-- `posixpath.basename`: everything after the last slash. -/
def basename (p : List Char) : List Char :=
  (splitOnSep p).getLastD []

/-- The extension part of `posixpath.splitext`: from the last dot of the
final component, unless the dots there are all leading. -/
def splitextExt (p : List Char) : List Char :=
  let base := basename p
  let pre := base.reverse.dropWhile (fun c => ¬(c = '.'))
  match pre with
  | [] => []
  | _ :: beforeDot =>
      if beforeDot.any (fun c => ¬(c = '.')) then
        base.drop beforeDot.length
      else []

/-! ## `apply.py`: path validation, planning, committing -/

/-- `apply.py` lines 95–111: `validate_path`.  Returns the resolved
absolute target path, or `none` when the relative path is rejected. -/
def validate_path (cwd rel_path project_root : List Char) : Option (List Char) :=
  if isabs rel_path then none
  else
    let normalized := normpath rel_path
    if (str "..").isPrefixOf normalized then none
    else
      let full_path := abspath cwd (joinPath project_root normalized)
      let abs_root := abspath cwd project_root
      if ¬((abs_root ++ ['/']).isPrefixOf full_path) ∧ full_path ≠ abs_root then none
      else some full_path

/-- Python `str.splitlines()` on ASCII-range text: line breaks are
`\r\n`, `\n`, `\r`, `\x0b`, `\x0c`, `\x1c`, `\x1d`, `\x1e`, `\x85`
(no keepends). -/
def isLineBreak (c : Char) : Bool :=
  c = '\n' ∨ c = '\r' ∨ c = '\x0b' ∨ c = '\x0c' ∨
  c = '\x1c' ∨ c = '\x1d' ∨ c = '\x1e' ∨ c = '\x85'

def pySplitlinesAux : List Char → List Char → List (List Char)
  | [], acc => if acc = [] then [] else [acc.reverse]
  | '\r' :: '\n' :: rest, acc => acc.reverse :: pySplitlinesAux rest []
  | c :: rest, acc =>
      if isLineBreak c then acc.reverse :: pySplitlinesAux rest []
      else pySplitlinesAux rest (c :: acc)

def pySplitlines (s : List Char) : List (List Char) := pySplitlinesAux s []

/-- `apply.py` lines 137–140: `count_changes`. -/
def count_changes (diffLines : List (List Char)) : Nat × Nat :=
  (diffLines.countP (fun l => (str "+").isPrefixOf l ∧ ¬(str "+++").isPrefixOf l),
   diffLines.countP (fun l => (str "-").isPrefixOf l ∧ ¬(str "---").isPrefixOf l))

/-- Status of one planned change (`apply.py` lines 200–209). -/
inductive Status where
  | added
  | modified
  | unchanged
deriving DecidableEq

/-- One element of the `changes` list built in `main`
(the tuple `(rel_path, status, diff_lines, new_content, full_path)`). -/
structure Change where
  rel : List Char
  status : Status
  diffLines : List (List Char)
  newContent : List Char
  fullPath : List Char
deriving DecidableEq

/-- The filesystem, modelled as an association list from absolute path to
file content (a present key is an existing file).  Directory structure is
implicit in the keys. -/
abbrev Fs := List (List Char × List Char)

def fsGet (fs : Fs) (p : List Char) : Option (List Char) := fs.lookup p

def fsSet (fs : Fs) (p v : List Char) : Fs :=
  if (fs.lookup p).isSome then fs.map (fun e => if e.1 = p then (p, v) else e)
  else fs ++ [(p, v)]

def fsRemove (fs : Fs) (p : List Char) : Fs := fs.filter (fun e => e.1 ≠ p)

/-- `apply.py` lines 207–208: the pseudo-diff shown for an added file. -/
def addedLines (newContent : List Char) : List (List Char) :=
  (pySplitlines newContent).map (fun l => '+' :: l ++ ['\n'])

/-- `apply.py` lines 194–209: plan one parsed block.  `diffFn` abstracts
`difflib.unified_diff` (`compute_diff`, lines 114–118), an external-library
call whose output shape does not matter here. -/
def planOne (diffFn : List Char → List Char → List Char → List (List Char))
    (fs : Fs) (cwd absRoot : List Char) (block : List Char × List Char) :
    Option Change :=
  match validate_path cwd block.1 absRoot with
  | none => none
  | some fullPath =>
      match fsGet fs fullPath with
      | some oldContent =>
          if oldContent = block.2 then
            some ⟨block.1, .unchanged, [], block.2, fullPath⟩
          else
            some ⟨block.1, .modified, diffFn block.1 oldContent block.2, block.2, fullPath⟩
      | none => some ⟨block.1, .added, addedLines block.2, block.2, fullPath⟩

/-- One iteration of the planning loop: append the planned `Change`, or
keep the accumulator when the path was rejected (`continue`). -/
def planStep (diffFn : List Char → List Char → List Char → List (List Char))
    (fs : Fs) (cwd absRoot : List Char) (changes : List Change)
    (block : List Char × List Char) : List Change :=
  match planOne diffFn fs cwd absRoot block with
  | none => changes
  | some c => changes ++ [c]

/-- `apply.py` lines 194–209: the planning loop over all parsed blocks
(invalid paths are skipped with `continue`). -/
def planChanges (diffFn : List Char → List Char → List Char → List (List Char))
    (fs : Fs) (cwd absRoot : List Char) (blocks : List (List Char × List Char)) :
    List Change :=
  blocks.foldl (planStep diffFn fs cwd absRoot) []

/-- Injected outcome of the fallible steps of one `write_file_atomic` call:
the write into the temporary file or the `os.replace` may raise. -/
inductive WriteOutcome where
  | ok
  | failWrite
  | failReplace
deriving DecidableEq

/-- `apply.py` lines 143–158: `write_file_atomic`, with the temporary file
name supplied by `tmpName` (modelling `tempfile.mkstemp`) and the injected
failure `oc`.  Returns the filesystem after the call and whether it
completed without raising; on a failure the `except` block unlinks the
temporary file and re-raises.  (`os.makedirs` is a no-op in this model
since directories are implicit.) -/
def write_file_atomic (fs : Fs) (tmpName filepath content : List Char)
    (oc : WriteOutcome) : Fs × Bool :=
  let fsTmp := fsSet fs tmpName []
  match oc with
  | .failWrite => (fsRemove fsTmp tmpName, false)
  | .failReplace => (fsRemove (fsSet fsTmp tmpName content) tmpName, false)
  | .ok => (fsSet (fsRemove (fsSet fsTmp tmpName content) tmpName) filepath content, true)

/-- `apply.py` lines 259–268: the commit loop.  `unchanged` entries are
skipped; each remaining change consumes one temporary name and one injected
outcome; a raising `write_file_atomic` is caught and the loop continues.
Returns the final filesystem and the `applied` counter. -/
def commitChanges (fs : Fs) : List Change → List (List Char) → List WriteOutcome →
    Fs × Nat
  | [], _, _ => (fs, 0)
  | c :: cs, tmps, ocs =>
      if c.status = .unchanged then commitChanges fs cs tmps ocs
      else
        let (fs', okFlag) :=
          write_file_atomic fs (tmps.headD (str ".tmp_")) c.fullPath c.newContent
            (ocs.headD .ok)
        let (fs'', n) := commitChanges fs' cs tmps.tail ocs.tail
        (fs'', if okFlag then n + 1 else n)

/-- `apply.py` lines 217–226: one line of the change summary. -/
def summaryLine (c : Change) : List Char :=
  match c.status with
  | .modified =>
      let (a, r) := count_changes c.diffLines
      str "  [M] " ++ c.rel ++ str "  (+" ++ str (toString a) ++ str ", -" ++
        str (toString r) ++ str " lines)"
  | .added =>
      str "  [A] " ++ c.rel ++ str "  (new file, " ++
        str (toString c.diffLines.length) ++ str " lines)"
  | .unchanged => str "  [=] " ++ c.rel ++ str "  (unchanged, skipping)"

/-- `apply.py` lines 232–243: the detailed diff dump printed for each
non-unchanged change. -/
def detailLines (changes : List Change) : List (List Char) :=
  changes.foldl
    (fun out c =>
      match c.status with
      | .unchanged => out
      | .added => out ++ (str "--- New file: " ++ c.rel ++ str " ---") :: c.diffLines
      | .modified => out ++ c.diffLines)
    []

/-- Result of one run of `apply.py`'s `main` after the input text has been
read: the exit code, the final filesystem, the `applied` counter, and the
planning/diff report printed to stderr before the confirmation point
(summary lines followed by the detailed diffs). -/
structure RunResult where
  exit : Nat
  fs : Fs
  applied : Nat
  report : List (List Char)
deriving DecidableEq

/-- `apply.py` lines 188–270: `main` from the point where the input text is
available.  `confirmYes` models the interactive answer read at line 251;
`tmps` and `ocs` inject the temporary file names and write outcomes. -/
def runMain (diffFn : List Char → List Char → List Char → List (List Char))
    (text : List Char) (fs : Fs) (cwd projectDir : List Char)
    (dryRun noConfirm confirmYes : Bool)
    (tmps : List (List Char)) (ocs : List WriteOutcome) : RunResult :=
  let absRoot := abspath cwd projectDir
  let blocks := parse_file_blocks text
  if blocks.isEmpty then ⟨1, fs, 0, []⟩ else
  let changes := planChanges diffFn fs cwd absRoot blocks
  if changes.isEmpty then ⟨1, fs, 0, []⟩ else
  let summary := changes.map summaryLine
  let hasChanges := changes.any (fun c => ¬(c.status = .unchanged))
  if ¬hasChanges then ⟨0, fs, 0, summary⟩ else
  let report := summary ++ detailLines changes
  if dryRun then ⟨0, fs, 0, report⟩ else
  if ¬noConfirm ∧ ¬confirmYes then ⟨1, fs, 0, report⟩ else
  let (fs', applied) := commitChanges fs changes tmps ocs
  ⟨0, fs', applied, report⟩

/-! ## `bundle.py`: the encoder -/

/-- Decimal rendering of a natural number (Python `str(n)`), drawing digit
characters from a fixed digit table; the fuel argument only forces
structural recursion and strictly dominates the number of digits. -/
def natDecimalAux : Nat → Nat → List Char → List Char
  | 0, _, acc => acc
  | fuel + 1, n, acc =>
    let d := (str "0123456789").getD (n % 10) '0'
    if n < 10 then d :: acc else natDecimalAux fuel (n / 10) (d :: acc)

def natDecimal (n : Nat) : List Char := natDecimalAux (n + 1) n []

/-- `f"{n/d:.1f}"` for the exact dyadic ratio `n / d` (`d` a power of two,
so the Python float is exact and `.1f` is round-half-to-even on the exact
value, modelled here with integer arithmetic). -/
def oneDecimal (n d : Nat) : List Char :=
  let t := n * 10
  let q := t / d
  let r := t % d
  let rounded :=
    if 2 * r > d then q + 1
    else if 2 * r < d then q
    else if q % 2 = 0 then q else q + 1
  natDecimal (rounded / 10) ++ str "." ++ natDecimal (rounded % 10)

/-- `bundle.py` lines 142–147: `human_size`. -/
def human_size (n : Nat) : List Char :=
  if n < 1024 then natDecimal n ++ str " B"
  else if n < 1024 * 1024 then oneDecimal n 1024 ++ str " KB"
  else oneDecimal n (1024 * 1024) ++ str " MB"

/-- Length of the UTF-8 encoding (`len(content.encode("utf-8"))`). -/
def utf8Length (s : List Char) : Nat := (s.map Char.utf8Size).sum

/-- `bundle.py` lines 36–53: `HEADER_TEMPLATE`, with the three interpolated
fields as parameters. -/
def HEADER_TEMPLATE (projectName fileCount totalSize : List Char) : List Char :=
  str "===== PROJECT BUNDLE =====\nProject: " ++ projectName ++
  str "\nFiles: " ++ fileCount ++
  str "\nTotal size: " ++ totalSize ++
  str "\n\nWhen you respond with modified files, use EXACTLY this format for each file:\n\n  ===== FILE: path/to/file.py =====\n  ```\n  <full file contents>\n  ```\n  ===== END FILE: path/to/file.py =====\n\nIMPORTANT: Always wrap the file contents in ``` code fences as shown above.\nOnly include files you have changed. Do not include unchanged files.\n===== END INSTRUCTIONS =====\n"

/-- The longest common prefix length of two component lists. -/
def commonPrefixLen : List (List Char) → List (List Char) → Nat
  | a :: as, b :: bs => if a = b then commonPrefixLen as bs + 1 else 0
  | _, _ => 0

/-- Python `"  " * i`. -/
def treeIndent (i : Nat) : List Char := (List.replicate i (str "  ")).flatten

/-- `bundle.py` lines 121–139: `build_tree`.  The loop state is the
accumulated lines and `prev_parts`; `common` reproduces the break-at-first-
difference loop bounded by `min(len(prev_parts), len(parts) - 1)`. -/
def build_tree (files : List (List Char × List Char)) : List Char :=
  let final := files.foldl
    (fun (st : List (List Char) × List (List Char)) f =>
      let (lines, prevParts) := st
      let parts := splitOnSep f.1
      let common := min (commonPrefixLen prevParts parts)
                        (min prevParts.length (parts.length - 1))
      let dirLines := (List.range' common (parts.length - 1 - common)).map
        (fun i => treeIndent i ++ parts.getD i [] ++ ['/'])
      let fileLine := treeIndent (parts.length - 1) ++ parts.getLastD []
      (lines ++ dirLines ++ [fileLine], parts))
    ([], [])
  List.intercalate (str "\n") final.1

/-- `bundle.py` line 162: `os.path.splitext(rel_path)[1].lstrip(".")`. -/
def extLstrip (p : List Char) : List Char :=
  (splitextExt p).dropWhile (fun c => c = '.')

/-- `bundle.py` lines 163–164: append a newline unless the content already
ends with one. -/
def ensureTrailingNewline (content : List Char) : List Char :=
  if pyEndsWith content (str "\n") then content else content ++ str "\n"

/-- `bundle.py` lines 161–171: the f-string emitted for one file entry. -/
def fileBlock (relPath content : List Char) : List Char :=
  str "===== FILE: " ++ relPath ++ str " =====\n```" ++ extLstrip relPath ++
  str "\n" ++ ensureTrailingNewline content ++
  str "```\n===== END FILE: " ++ relPath ++ str " ====="

/-- `bundle.py` lines 150–173: `build_bundle` (with the explicit `cwd` of
the `os.path.abspath` call). -/
def build_bundle (cwd root : List Char) (files : List (List Char × List Char)) :
    List Char :=
  let name := basename (abspath cwd root)
  let total := (files.map (fun f => utf8Length f.2)).sum
  let parts :=
    [HEADER_TEMPLATE name (natDecimal files.length) (human_size total),
     str "===== TREE =====",
     build_tree files,
     str "===== END TREE =====\n"] ++
    files.map (fun f => fileBlock f.1 f.2)
  List.intercalate (str "\n") parts

/-! ## Spec-side definitions and helper lemmas -/

/-- Spec reading of "ends with exactly one trailing newline". -/
def endsWithExactlyOneNewline (s : List Char) : Bool :=
  pyEndsWith s (str "\n") ∧ ¬pyEndsWith s (str "\n\n")

/-- The decision `parse_file_blocks` applies to one primary-grammar match:
drop it on mismatched marker paths, otherwise keep the stripped open path
with the post-processed content. -/
def keepBlock (m : Caps) : Option (List Char × List Char) :=
  if pyStrip (getGroup 1 m) = pyStrip (getGroup 3 m) then
    some (pyStrip (getGroup 1 m), processContent (getGroup 2 m))
  else none

theorem foldl_if_filterMap {α β : Type} (P : α → Bool) (g : α → β)
    (l : List α) (acc : List β) :
    l.foldl (fun bs x => if P x then bs ++ [g x] else bs) acc =
      acc ++ l.filterMap (fun x => if P x then some (g x) else none) := by
  induction l generalizing acc with
  | nil => simp
  | cons x xs ih =>
      simp only [List.foldl_cons, List.filterMap_cons]
      by_cases h : P x
      · simp [h, ih]
      · simp [h, ih]

theorem primaryBlocks_eq_filterMap (text : List Char) :
    primaryBlocks text = (findAll FILE_BLOCK_PATTERN text true).filterMap keepBlock := by
  unfold primaryBlocks keepBlock
  simpa using foldl_if_filterMap
    (fun m => pyStrip (getGroup 1 m) = pyStrip (getGroup 3 m))
    (fun m => (pyStrip (getGroup 1 m), processContent (getGroup 2 m)))
    (findAll FILE_BLOCK_PATTERN text true) []

/-! ## Claims -/

/-- **C7**, counterexample: for the entry `("a.txt", "x\n\n")` the encoder
emits the content part `"x\n\n"` unchanged, which ends with two trailing
newlines, not exactly one — the encoder only appends a newline when one is
missing, it never collapses extra ones. -/
theorem C7_counterexample :
    fileBlock (str "a.txt") (str "x\n\n") =
      str "===== FILE: a.txt =====\n```txt\nx\n\n```\n===== END FILE: a.txt =====" ∧
    ensureTrailingNewline (str "x\n\n") = str "x\n\n" ∧
    endsWithExactlyOneNewline (ensureTrailingNewline (str "x\n\n")) = false := by
  decide

/-- **C7**, amended: for every file entry the encoder emits its delimited
block with the file content normalized to end with *at least* one trailing
newline — a newline is appended exactly when the content does not already
end with one, and content already ending with a newline is emitted
unchanged. -/
theorem C7_trailing_newline_normalization (p c : List Char) :
    fileBlock p c =
      str "===== FILE: " ++ p ++ str " =====\n```" ++ extLstrip p ++ str "\n" ++
        ensureTrailingNewline c ++ str "```\n===== END FILE: " ++ p ++ str " =====" ∧
    pyEndsWith (ensureTrailingNewline c) (str "\n") = true ∧
    (pyEndsWith c (str "\n") = true → ensureTrailingNewline c = c) ∧
    (pyEndsWith c (str "\n") = false → ensureTrailingNewline c = c ++ str "\n") := by
  refine ⟨rfl, ?_, fun h => by simp [ensureTrailingNewline, h],
    fun h => by simp [ensureTrailingNewline, h]⟩
  unfold ensureTrailingNewline
  by_cases h : pyEndsWith c (str "\n") = true
  · simp [h]
  · simp only [h]
    simp [pyEndsWith, List.isSuffixOf_iff_suffix, List.suffix_append]

/-- **C7** witness: the amended theorem applied to the entry
`("a.txt", "abc")`. -/
theorem C7_trailing_newline_normalization_witness :
    ensureTrailingNewline (str "abc") = str "abc" ++ str "\n" :=
  (C7_trailing_newline_normalization (str "a.txt") (str "abc")).2.2.2 (by decide)

/-- **C5**: `parse_file_blocks` returns the fallback-grammar blocks exactly
when the primary-grammar phase produced zero blocks, and otherwise returns
the primary-grammar blocks unmixed — fallback and primary results are never
merged in one parse. -/
theorem C5_fallback_exactly_when_no_primary (text : List Char) :
    parse_file_blocks text =
      (if primaryBlocks text = [] then fallbackBlocks text else primaryBlocks text) ∧
    (primaryBlocks text ≠ [] → parse_file_blocks text = primaryBlocks text) ∧
    (primaryBlocks text = [] → parse_file_blocks text = fallbackBlocks text) := by
  unfold parse_file_blocks
  rcases h : primaryBlocks text with _ | ⟨b, bs⟩ <;> simp [h]

/-- **C5** witness: the theorem applied to a text with zero strict-grammar
blocks and one inline-filename-plus-fence pair; the fallback grammar yields
exactly that one block. -/
theorem C5_fallback_exactly_when_no_primary_witness :
    parse_file_blocks (str "see `foo.py`\n```python\nprint(1)\n```\ndone") =
      fallbackBlocks (str "see `foo.py`\n```python\nprint(1)\n```\ndone") ∧
    fallbackBlocks (str "see `foo.py`\n```python\nprint(1)\n```\ndone") =
      [(str "foo.py", str "print(1)")] :=
  ⟨(C5_fallback_exactly_when_no_primary
      (str "see `foo.py`\n```python\nprint(1)\n```\ndone")).2.2 (by decide),
   by decide⟩

/-- **C8**: a dry run leaves the filesystem untouched and applies zero
writes, and its planning/diff report (everything printed before the
confirmation point) is identical to that of a normal run on the same
input and project state. -/
theorem C8_dry_run_same_report_no_mutation
    (diffFn : List Char → List Char → List Char → List (List Char))
    (text : List Char) (fs : Fs) (cwd projectDir : List Char)
    (noConfirm confirmYes : Bool) (tmps : List (List Char)) (ocs : List WriteOutcome) :
    (runMain diffFn text fs cwd projectDir true noConfirm confirmYes tmps ocs).fs = fs ∧
    (runMain diffFn text fs cwd projectDir true noConfirm confirmYes tmps ocs).applied = 0 ∧
    (runMain diffFn text fs cwd projectDir true noConfirm confirmYes tmps ocs).report =
      (runMain diffFn text fs cwd projectDir false noConfirm confirmYes tmps ocs).report := by
  unfold runMain
  by_cases h0 : (parse_file_blocks text).isEmpty
  · simp [h0]
  · by_cases h1 :
      (planChanges diffFn fs cwd (abspath cwd projectDir) (parse_file_blocks text)).isEmpty
    · simp [h0, h1]
    · by_cases h2 :
        ((planChanges diffFn fs cwd (abspath cwd projectDir) (parse_file_blocks text)).any
          fun c => !(c.status = Status.unchanged)) = true
      · by_cases h3 : noConfirm = false ∧ confirmYes = false
        · simp [h0, h1, h2, h3]
        · simp [h0, h1, h2, h3]
      · simp [h0, h1, h2]

/-- **C4**: a primary-grammar match whose open-marker path differs from its
close-marker path contributes no parsed block, while every other match is
still processed — the primary phase is exactly the per-match keep/drop
decision `keepBlock` mapped over all matches in order. -/
theorem C4_mismatched_markers_dropped (text : List Char) :
    primaryBlocks text = (findAll FILE_BLOCK_PATTERN text true).filterMap keepBlock ∧
    (∀ m ∈ findAll FILE_BLOCK_PATTERN text true,
      pyStrip (getGroup 1 m) ≠ pyStrip (getGroup 3 m) → keepBlock m = none) ∧
    (∀ m ∈ findAll FILE_BLOCK_PATTERN text true,
      pyStrip (getGroup 1 m) = pyStrip (getGroup 3 m) →
        keepBlock m = some (pyStrip (getGroup 1 m), processContent (getGroup 2 m))) := by
  refine ⟨primaryBlocks_eq_filterMap text, ?_, ?_⟩
  · intro m _ h
    simp [keepBlock, h]
  · intro m _ h
    simp [keepBlock, h]

/-- **C4** witness: in a text whose first block has open path `a.txt` and
close path `b.txt`, that match is dropped and the following well-formed
block still parses. -/
theorem C4_mismatched_markers_dropped_witness :
    keepBlock [(1, str "a.txt"), (2, str "x\n"), (3, str "b.txt")] = none ∧
    primaryBlocks
        (str "===== FILE: a.txt =====\nx\n===== END FILE: b.txt =====\n===== FILE: c.txt =====\ny\n===== END FILE: c.txt =====") =
      [(str "c.txt", str "y\n")] :=
  ⟨(C4_mismatched_markers_dropped
      (str "===== FILE: a.txt =====\nx\n===== END FILE: b.txt =====\n===== FILE: c.txt =====\ny\n===== END FILE: c.txt =====")).2.1
      [(1, str "a.txt"), (2, str "x\n"), (3, str "b.txt")] (by decide) (by decide),
   by decide⟩

/-- **C2**: planning is exactly `planOne` mapped over the parsed blocks in
order; a block whose path is absolute, or whose normalized form begins with
`..`, or whose resolved path falls outside the project root, produces no
`Change`; and every block accepted by `validate_path` still produces its
`Change`. -/
theorem C2_path_safety (diffFn : List Char → List Char → List Char → List (List Char))
    (fs : Fs) (cwd root : List Char) (blocks : List (List Char × List Char)) :
    planChanges diffFn fs cwd root blocks = blocks.filterMap (planOne diffFn fs cwd root) ∧
    (∀ b : List Char × List Char,
      (isabs b.1 = true ∨
       (str "..").isPrefixOf (normpath b.1) = true ∨
       (¬((abspath cwd root ++ ['/']).isPrefixOf
            (abspath cwd (joinPath root (normpath b.1))) = true) ∧
        abspath cwd (joinPath root (normpath b.1)) ≠ abspath cwd root)) →
      planOne diffFn fs cwd root b = none) ∧
    (∀ (b : List Char × List Char) (full : List Char),
      validate_path cwd b.1 root = some full →
      ∃ chg : Change, planOne diffFn fs cwd root b = some chg ∧
        chg.fullPath = full ∧ chg.rel = b.1 ∧ chg.newContent = b.2) := by
  refine ⟨?_, ?_, ?_⟩
  · unfold planChanges
    have step : ∀ (bs : List (List Char × List Char)) (acc : List Change),
        List.foldl (planStep diffFn fs cwd root) acc bs =
          acc ++ bs.filterMap (planOne diffFn fs cwd root) := by
      intro bs
      induction bs with
      | nil => intro acc; simp
      | cons b bs ih =>
          intro acc
          simp only [List.foldl_cons, List.filterMap_cons]
          cases h : planOne diffFn fs cwd root b <;> simp [planStep, h, ih]
    simpa using step blocks []
  · intro b hb
    have hval : validate_path cwd b.1 root = none := by
      unfold validate_path
      rcases hb with h | h | h
      · simp [h]
      · by_cases ha : isabs b.1 = true
        · simp [ha]
        · simp [ha, h]
      · by_cases ha : isabs b.1 = true
        · simp [ha]
        · by_cases hdd : (str "..").isPrefixOf (normpath b.1) = true
          · simp [ha, hdd]
          · simp [ha, hdd, h.1, h.2]
    unfold planOne
    rw [hval]
  · intro b full hval
    simp only [planOne, hval]
    cases hg : fsGet fs full with
    | none =>
        simp only [hg]
        exact ⟨_, rfl, rfl, rfl, rfl⟩
    | some oldContent =>
        simp only [hg]
        by_cases he : oldContent = b.2
        · simp only [he, if_pos rfl]
          exact ⟨_, rfl, rfl, rfl, rfl⟩
        · simp only [if_neg he]
          exact ⟨_, rfl, rfl, rfl, rfl⟩

/-- **C2** witness: `../etc/passwd` is rejected (no `Change`), while the
sibling valid entry in the same batch still becomes a `Change`. -/
theorem C2_path_safety_witness :
    planOne (fun _ _ _ => []) [] (str "/") (str "/proj") (str "../etc/passwd", str "pwned") =
      none ∧
    planChanges (fun _ _ _ => []) [] (str "/") (str "/proj")
        [(str "../etc/passwd", str "pwned"), (str "ok.txt", str "fine")] =
      [⟨str "ok.txt", .added, addedLines (str "fine"), str "fine", str "/proj/ok.txt"⟩] :=
  ⟨(C2_path_safety (fun _ _ _ => []) [] (str "/") (str "/proj")
      [(str "../etc/passwd", str "pwned"), (str "ok.txt", str "fine")]).2.1
      (str "../etc/passwd", str "pwned") (Or.inr (Or.inl (by decide))),
   by decide⟩


theorem fsGet_none_forall {fs : Fs} {p : List Char} (h : fsGet fs p = none) :
    ∀ e ∈ fs, e.1 ≠ p := by
  simp only [fsGet] at h
  simp at h
  intro e he
  exact fun hc => h e.1 e.2 (by simpa using he) hc.symm

theorem fsSet_fresh {fs : Fs} {p : List Char} (v : List Char) (h : fsGet fs p = none) :
    fsSet fs p v = fs ++ [(p, v)] := by
  unfold fsSet
  simp only [fsGet] at h
  simp [h]

theorem fsGet_append_right_fresh {fs : Fs} {p : List Char} (v : List Char)
    (h : fsGet fs p = none) : fsGet (fs ++ [(p, v)]) p = some v := by
  have hk := fsGet_none_forall h
  induction fs with
  | nil => simp [fsGet, List.lookup]
  | cons x xs ih =>
      simp only [fsGet, List.cons_append, List.lookup]
      have hx : ¬p == x.1 := by
        simpa using fun hc => hk x (by simp) hc.symm
      simp only [hx]
      exact ih (by
        simp only [fsGet] at h ⊢
        simp at h ⊢
        exact h.2)
        (fun e he => hk e (by simp [he]))
      
theorem fsSet_overwrite_fresh {fs : Fs} {p : List Char} (v w : List Char)
    (h : fsGet fs p = none) : fsSet (fs ++ [(p, v)]) p w = fs ++ [(p, w)] := by
  unfold fsSet
  have hl : (fs ++ [(p, v)]).lookup p = some v := fsGet_append_right_fresh v h
  rw [hl]
  simp only [Option.isSome_some, if_pos]
  rw [List.map_append]
  congr 1
  · have hk := fsGet_none_forall h
    rw [List.map_congr_left (g := id) (fun e he => by simp [hk e he])]
    exact List.map_id fs
  · simp

theorem fsRemove_append_fresh {fs : Fs} {p : List Char} (v : List Char)
    (h : fsGet fs p = none) : fsRemove (fs ++ [(p, v)]) p = fs := by
  unfold fsRemove
  rw [List.filter_append]
  have hk := fsGet_none_forall h
  rw [List.filter_eq_self.mpr (fun e he => by simpa using hk e he)]
  simp

theorem write_file_atomic_fail {fs : Fs} {tmp target content : List Char}
    {oc : WriteOutcome} (h : fsGet fs tmp = none) (hoc : ¬oc = WriteOutcome.ok) :
    write_file_atomic fs tmp target content oc = (fs, false) := by
  cases oc with
  | ok => exact absurd rfl hoc
  | failWrite =>
      show (fsRemove (fsSet fs tmp []) tmp, false) = (fs, false)
      rw [fsSet_fresh _ h, fsRemove_append_fresh _ h]
  | failReplace =>
      show (fsRemove (fsSet (fsSet fs tmp []) tmp content) tmp, false) = (fs, false)
      rw [fsSet_fresh _ h, fsSet_overwrite_fresh _ _ h, fsRemove_append_fresh _ h]

/-- **C3**: if the write or replace step fails for one file, the filesystem
is left exactly as it was — the target's pre-existing content is unaltered
and the temporary file is gone — and the commit loop continues with the
remaining changes of the batch. -/
theorem C3_write_failure_atomicity (fs : Fs) (c : Change) (cs : List Change)
    (tmp : List Char) (tmps : List (List Char)) (oc : WriteOutcome)
    (ocs : List WriteOutcome)
    (hfresh : fsGet fs tmp = none) (hoc : ¬oc = WriteOutcome.ok)
    (hst : ¬c.status = Status.unchanged) :
    write_file_atomic fs tmp c.fullPath c.newContent oc = (fs, false) ∧
    fsGet (write_file_atomic fs tmp c.fullPath c.newContent oc).1 c.fullPath =
      fsGet fs c.fullPath ∧
    fsGet (write_file_atomic fs tmp c.fullPath c.newContent oc).1 tmp = none ∧
    commitChanges fs (c :: cs) (tmp :: tmps) (oc :: ocs) =
      commitChanges fs cs tmps ocs := by
  have hw := @write_file_atomic_fail fs tmp c.fullPath c.newContent oc hfresh hoc
  refine ⟨hw, by rw [hw], by rw [hw]; exact hfresh, ?_⟩
  conv_lhs => unfold commitChanges
  simp [hst, hw]

/-- **C3** witness. -/
theorem C3_write_failure_atomicity_witness :
    write_file_atomic [(str "/proj/a.txt", str "old")] (str "/proj/.tmp_1")
        (str "/proj/a.txt") (str "new") WriteOutcome.failReplace =
      ([(str "/proj/a.txt", str "old")], false) ∧
    commitChanges [(str "/proj/a.txt", str "old")]
        [⟨str "a.txt", Status.modified, [], str "new", str "/proj/a.txt"⟩,
         ⟨str "b.txt", Status.added, [], str "hi", str "/proj/b.txt"⟩]
        [str "/proj/.tmp_1", str "/proj/.tmp_2"]
        [WriteOutcome.failReplace, WriteOutcome.ok] =
      ([(str "/proj/a.txt", str "old"), (str "/proj/b.txt", str "hi")], 1) :=
  ⟨(C3_write_failure_atomicity [(str "/proj/a.txt", str "old")]
      ⟨str "a.txt", Status.modified, [], str "new", str "/proj/a.txt"⟩ []
      (str "/proj/.tmp_1") [] WriteOutcome.failReplace [] (by decide) (by decide)
      (by decide)).1,
   by decide⟩

/-- **C6**: a planned change for an existing target has status `unchanged`
exactly when the on-disk content equals the new content byte for byte;
`unchanged` entries are skipped by the commit loop; and a nonempty batch in
which every planned change is `unchanged` produces zero writes, leaves the
filesystem untouched, and exits with code 0. -/
theorem C6_unchanged_semantics
    (diffFn : List Char → List Char → List Char → List (List Char))
    (text : List Char) (fs : Fs) (cwd projectDir : List Char)
    (dryRun noConfirm confirmYes : Bool) (tmps : List (List Char))
    (ocs : List WriteOutcome) :
    (∀ (b : List Char × List Char) (full oldContent : List Char),
      validate_path cwd b.1 (abspath cwd projectDir) = some full →
      fsGet fs full = some oldContent →
      ((planOne diffFn fs cwd (abspath cwd projectDir) b).map Change.status =
          some Status.unchanged ↔ oldContent = b.2)) ∧
    (∀ (fs₀ : Fs) (c : Change) (cs : List Change) (tmps₀ : List (List Char))
        (ocs₀ : List WriteOutcome), c.status = Status.unchanged →
      commitChanges fs₀ (c :: cs) tmps₀ ocs₀ = commitChanges fs₀ cs tmps₀ ocs₀) ∧
    (planChanges diffFn fs cwd (abspath cwd projectDir) (parse_file_blocks text) ≠ [] →
     (∀ c ∈ planChanges diffFn fs cwd (abspath cwd projectDir) (parse_file_blocks text),
        c.status = Status.unchanged) →
     runMain diffFn text fs cwd projectDir dryRun noConfirm confirmYes tmps ocs =
       ⟨0, fs, 0,
        (planChanges diffFn fs cwd (abspath cwd projectDir)
            (parse_file_blocks text)).map summaryLine⟩) := by
  refine ⟨?_, ?_, ?_⟩
  · intro b full oldContent hval hget
    simp only [planOne, hval, hget]
    by_cases he : oldContent = b.2
    · simp [he]
    · simp [he]
  · intro fs₀ c cs tmps₀ ocs₀ hc
    conv_lhs => unfold commitChanges
    simp [hc]
  · intro hne hall
    unfold runMain
    rcases hpb : parse_file_blocks text with _ | ⟨b, bs⟩
    · rw [hpb] at hne
      simp [planChanges] at hne
    · rw [hpb] at hne hall
      have hchanges :
          (planChanges diffFn fs cwd (abspath cwd projectDir) (b :: bs)).isEmpty = false := by
        rw [List.isEmpty_eq_false]
        exact hne
      have hany : ((planChanges diffFn fs cwd (abspath cwd projectDir) (b :: bs)).any
          fun c => !(c.status = Status.unchanged)) = false := by
        rw [List.any_eq_false]
        intro c hc
        simp [hall c hc]
      simp [hchanges, hany]

/-- **C6** witness: a batch whose single file already matches plans one
`unchanged` change, performs zero writes and exits 0. -/
theorem C6_unchanged_semantics_witness :
    runMain (fun _ _ _ => [])
        (str "===== FILE: a.txt =====\nsame\n===== END FILE: a.txt =====")
        [(str "/proj/a.txt", str "same\n")] (str "/") (str "/proj")
        false false true [] [] =
      ⟨0, [(str "/proj/a.txt", str "same\n")], 0,
       [str "  [=] a.txt  (unchanged, skipping)"]⟩ :=
  ((C6_unchanged_semantics (fun _ _ _ => [])
      (str "===== FILE: a.txt =====\nsame\n===== END FILE: a.txt =====")
      [(str "/proj/a.txt", str "same\n")] (str "/") (str "/proj")
      false false true [] []).2.2 (by decide) (by decide)).trans (by decide)

/-- **C10**, counterexample: for a block whose fence interior is
`"x\n\n\n"`, the parsed content is `"x\n\n"` — the interior of the first
fenced region is *not* kept verbatim, a trailing blank line is collapsed
afterwards. -/
theorem C10_counterexample :
    findAll FILE_BLOCK_PATTERN
        (str "===== FILE: a.txt =====\n```\nx\n\n\n```\n===== END FILE: a.txt =====") true =
      [[(1, str "a.txt"), (2, str "```\nx\n\n\n```\n"), (3, str "a.txt")]] ∧
    (findAll CODE_FENCE_PATTERN (str "```\nx\n\n\n```\n") true).head? =
      some [(1, str "x\n\n\n")] ∧
    parse_file_blocks
        (str "===== FILE: a.txt =====\n```\nx\n\n\n```\n===== END FILE: a.txt =====") =
      [(str "a.txt", str "x\n\n")] ∧
    ¬str "x\n\n" = str "x\n\n\n" := by
  decide

/-- **C10**, amended: for every primary-grammar match with agreeing marker
paths whose body contains a fenced region, the parsed content is exactly
the interior of the *first* fenced region after line-ending normalization
and collapsing of one trailing blank line; all body text outside that
first fence, including any later fenced regions, is discarded. -/
theorem C10_first_fence_content (text : List Char) (m fm : Caps)
    (hm : m ∈ findAll FILE_BLOCK_PATTERN text true)
    (hpaths : pyStrip (getGroup 1 m) = pyStrip (getGroup 3 m))
    (hf : (findAll CODE_FENCE_PATTERN (getGroup 2 m) true).head? = some fm) :
    processContent (getGroup 2 m) =
      (if pyEndsWith (normalizeLineEndings (getGroup 1 fm)) (str "\n\n")
       then (normalizeLineEndings (getGroup 1 fm)).dropLast
       else normalizeLineEndings (getGroup 1 fm)) ∧
    (pyStrip (getGroup 1 m), processContent (getGroup 2 m)) ∈ primaryBlocks text := by
  constructor
  · simp only [processContent, hf]
  · rw [primaryBlocks_eq_filterMap]
    exact List.mem_filterMap.mpr ⟨m, hm, by simp [keepBlock, hpaths]⟩

/-- **C10** witness: the amended theorem applied to a block with
commentary around a fenced region. -/
theorem C10_first_fence_content_witness :
    processContent
        (getGroup 2 [(1, str "a.txt"), (2, str "intro\n```py\nfenced\n```\noutro\n"),
                     (3, str "a.txt")]) =
      (if pyEndsWith (normalizeLineEndings (getGroup 1 [(1, str "fenced\n")])) (str "\n\n")
       then (normalizeLineEndings (getGroup 1 [(1, str "fenced\n")])).dropLast
       else normalizeLineEndings (getGroup 1 [(1, str "fenced\n")])) ∧
    (pyStrip (getGroup 1 [(1, str "a.txt"), (2, str "intro\n```py\nfenced\n```\noutro\n"),
        (3, str "a.txt")]),
     processContent
        (getGroup 2 [(1, str "a.txt"), (2, str "intro\n```py\nfenced\n```\noutro\n"),
                     (3, str "a.txt")])) ∈
      primaryBlocks
        (str "===== FILE: a.txt =====\nintro\n```py\nfenced\n```\noutro\n===== END FILE: a.txt =====") :=
  C10_first_fence_content
    (str "===== FILE: a.txt =====\nintro\n```py\nfenced\n```\noutro\n===== END FILE: a.txt =====")
    [(1, str "a.txt"), (2, str "intro\n```py\nfenced\n```\noutro\n"), (3, str "a.txt")]
    [(1, str "fenced\n")] (by decide) (by decide) (by decide)

/-- A path component that survives normalization unchanged: not empty, not
`.`, not `..`. -/
def goodComp (c : List Char) : Bool := ¬(c = [] ∨ c = str "." ∨ c = str "..")

theorem goodComp_spec {c : List Char} (h : goodComp c = true) :
    c ≠ [] ∧ c ≠ str "." ∧ c ≠ str ".." := by
  unfold goodComp at h
  simpa using h

theorem splitOnSep_ne_nil (p : List Char) : splitOnSep p ≠ [] := by
  unfold splitOnSep List.splitOn
  exact List.splitOnP_ne_nil _ p

theorem splitOnSep_sep_cons (rest : List Char) :
    splitOnSep ('/' :: rest) = [] :: splitOnSep rest := by
  simp [splitOnSep, List.splitOn, List.splitOnP_cons]

theorem splitOnSep_cons_ne {c : Char} (rest : List Char) (hc : ¬c = '/') :
    splitOnSep (c :: rest) = (splitOnSep rest).modifyHead (c :: ·) := by
  simp [splitOnSep, List.splitOn, List.splitOnP_cons, hc]

theorem modifyHead_append_left {α : Type} (f : α → α) (xs ys : List α) (h : xs ≠ []) :
    (xs ++ ys).modifyHead f = xs.modifyHead f ++ ys := by
  cases xs with
  | nil => exact absurd rfl h
  | cons x xs => simp

theorem splitOnSep_append_sep (a b : List Char) :
    splitOnSep (a ++ '/' :: b) = splitOnSep a ++ splitOnSep b := by
  induction a with
  | nil =>
      rw [List.nil_append, splitOnSep_sep_cons]
      rfl
  | cons c a ih =>
      by_cases hc : c = '/'
      · subst hc
        simp only [List.cons_append, splitOnSep_sep_cons, ih]
      · simp only [List.cons_append, splitOnSep_cons_ne _ hc, ih]
        rw [modifyHead_append_left _ _ _ (splitOnSep_ne_nil a)]

theorem intercalate_splitOnSep (p : List Char) :
    List.intercalate (str "/") (splitOnSep p) = p := by
  have h : str "/" = ['/'] := rfl
  rw [h]
  exact List.intercalate_splitOn p '/'

theorem foldl_normpathStep_good (k : Nat) (comps : List (List Char))
    (acc : List (List Char)) (h : ∀ c ∈ comps, goodComp c = true) :
    comps.foldl (normpathStep k) acc = acc ++ comps := by
  induction comps generalizing acc with
  | nil => simp
  | cons c cs ih =>
      obtain ⟨h1, h2, h3⟩ := goodComp_spec (h c (by simp))
      have hstep : normpathStep k acc c = acc ++ [c] := by
        unfold normpathStep
        rw [if_neg (by simp [h1, h2]), if_pos (Or.inl h3)]
      rw [List.foldl_cons, hstep, ih _ (fun d hd => h d (by simp [hd]))]
      simp

theorem normpath_abs_good (rest : List Char) (comps : List (List Char))
    (hrest : splitOnSep rest = comps) (hne : comps ≠ [])
    (hgood : ∀ c ∈ comps, goodComp c = true) :
    normpath ('/' :: rest) = '/' :: rest := by
  have hrne : rest ≠ [] := by
    intro hr
    subst hr
    have : comps = [[]] := by
      rw [← hrest]
      rfl
    subst this
    simpa [goodComp] using hgood [] (by simp)
  have hrsl : ∀ r2, rest ≠ '/' :: r2 := by
    intro r2 hr
    subst hr
    rw [splitOnSep_sep_cons] at hrest
    have hb : goodComp [] = true := hgood [] (by rw [← hrest]; simp)
    simp [goodComp] at hb
  have hpfx1 : (str "/").isPrefixOf ('/' :: rest) = true := by
    simp [str, List.isPrefixOf]
  have hpfx2 : (str "//").isPrefixOf ('/' :: rest) = false := by
    cases rest with
    | nil => rfl
    | cons rc rtail =>
        have h1 : ¬rc = '/' := fun hc => hrsl rtail (by rw [hc])
        have h2 : ¬ ('/' : Char) = rc := fun hc => h1 hc.symm
        simp [str, List.isPrefixOf, h2]
  have hstep0 : normpathStep 1 [] [] = [] := by
    unfold normpathStep
    rw [if_pos (Or.inl rfl)]
  have hout : List.intercalate (str "/") comps = rest := by
    rw [← hrest, intercalate_splitOnSep]
  unfold normpath
  rw [if_neg (by simp)]
  simp only [hpfx1, hpfx2, Bool.false_eq_true, false_and, if_false, if_true,
    ite_true, ite_false, splitOnSep_sep_cons, hrest, List.foldl_cons, hstep0,
    foldl_normpathStep_good 1 comps [] hgood, List.nil_append, hout,
    List.replicate, List.cons_append]
  simp

theorem splitOnSep_eq_nil_cons {p : List Char} {comps : List (List Char)}
    (h : splitOnSep p = [] :: comps) (hne : comps ≠ []) :
    ∃ rest, p = '/' :: rest ∧ splitOnSep rest = comps := by
  cases p with
  | nil =>
      exfalso
      have : ([[]] : List (List Char)) = [] :: comps := h
      exact hne (by simpa using this.symm)
  | cons c cs =>
      by_cases hc : c = '/'
      · subst hc
        rw [splitOnSep_sep_cons] at h
        exact ⟨cs, rfl, by simpa using h⟩
      · exfalso
        rw [splitOnSep_cons_ne _ hc] at h
        rcases hsp : splitOnSep cs with _ | ⟨h0, t⟩
        · exact splitOnSep_ne_nil cs hsp
        · rw [hsp] at h
          simp at h

theorem getLast_sep_comp {p : List Char} (hl : p.getLast? = some '/') :
    (splitOnSep p).getLast? = some [] := by
  rcases List.eq_nil_or_concat p with rfl | ⟨as, a, rfl⟩
  · simp at hl
  · rw [List.concat_eq_append] at hl ⊢
    rw [List.getLast?_concat] at hl
    obtain rfl : a = '/' := by simpa using hl
    rw [show as ++ ['/'] = as ++ '/' :: [] from rfl, splitOnSep_append_sep]
    have : splitOnSep [] = [[]] := rfl
    rw [this]
    exact List.getLast?_concat _

theorem joinPath_eq {root n : List Char} (hne : ¬root = [])
    (hlast : ¬root.getLast? = some '/') (hnabs : isabs n = false) :
    joinPath root n = root ++ '/' :: n := by
  unfold joinPath
  rw [if_neg (by simp [hnabs]), if_neg (by simp [hne, hlast])]


/-- **C9**: a relative path whose normalized form begins with `..` merely as
the prefix of an ordinary name (such as `..config/settings.txt`) is rejected
by `validate_path` as path traversal, even though joining it with the
project root resolves to a location strictly inside the root. -/
theorem C9_dotdot_name_prefix_rejected (cwd rel root : List Char)
    (rcomps ncomps : List (List Char))
    (hroot : splitOnSep root = [] :: rcomps) (hrne : rcomps ≠ [])
    (hrgood : ∀ c ∈ rcomps, goodComp c = true)
    (hnsplit : splitOnSep (normpath rel) = ncomps)
    (hngood : ∀ c ∈ ncomps, goodComp c = true)
    (hdd : (str "..").isPrefixOf (normpath rel) = true)
    (hnabs : isabs (normpath rel) = false) :
    validate_path cwd rel root = none ∧
    abspath cwd (joinPath root (normpath rel)) = root ++ '/' :: normpath rel ∧
    (root ++ ['/']).isPrefixOf (abspath cwd (joinPath root (normpath rel))) = true ∧
    abspath cwd (joinPath root (normpath rel)) ≠ root := by
  obtain ⟨rest, rfl, hrest⟩ := splitOnSep_eq_nil_cons hroot hrne
  have hrootne : ¬('/' :: rest) = [] := by simp
  have hlast : ¬('/' :: rest).getLast? = some '/' := by
    intro hl
    have h2 := getLast_sep_comp hl
    rw [hroot] at h2
    rcases rcomps with _ | ⟨r0, rtail⟩
    · exact hrne rfl
    · rw [List.getLast?_cons_cons] at h2
      simpa [goodComp] using hrgood [] (List.mem_of_mem_getLast? h2)
  have hj : joinPath ('/' :: rest) (normpath rel) =
      ('/' :: rest) ++ '/' :: normpath rel := joinPath_eq hrootne hlast hnabs
  have hsplit2 : splitOnSep (rest ++ '/' :: normpath rel) = rcomps ++ ncomps := by
    rw [splitOnSep_append_sep, hrest, hnsplit]
  have hgood2 : ∀ c ∈ rcomps ++ ncomps, goodComp c = true := by
    intro c hc
    rcases List.mem_append.mp hc with hc | hc
    · exact hrgood c hc
    · exact hngood c hc
  have hnorm : normpath (('/' :: rest) ++ '/' :: normpath rel) =
      ('/' :: rest) ++ '/' :: normpath rel := by
    have hshape : ('/' :: rest) ++ '/' :: normpath rel =
        '/' :: (rest ++ '/' :: normpath rel) := rfl
    rw [hshape]
    exact normpath_abs_good _ _ hsplit2 (by simp [hrne]) hgood2
  have habs2 : isabs (('/' :: rest) ++ '/' :: normpath rel) = true := rfl
  have hfull : abspath cwd (joinPath ('/' :: rest) (normpath rel)) =
      ('/' :: rest) ++ '/' :: normpath rel := by
    rw [hj]
    unfold abspath
    rw [if_pos habs2, hnorm]
  refine ⟨?_, hfull, ?_, ?_⟩
  · unfold validate_path
    by_cases ha : isabs rel = true
    · rw [if_pos ha]
    · rw [if_neg ha]
      show (if (str "..").isPrefixOf (normpath rel) = true then none else _) = none
      rw [if_pos hdd]
  · rw [hfull]
    have hshape2 : ('/' :: rest) ++ '/' :: normpath rel =
        (('/' :: rest) ++ ['/']) ++ normpath rel := by simp
    rw [hshape2]
    exact List.isPrefixOf_iff_prefix.mpr (List.prefix_append _ _)
  · rw [hfull]
    intro he
    have hlen := congrArg List.length he
    simp at hlen

/-- **C9** witness: `..config/settings.txt` against root `/proj`. -/
theorem C9_dotdot_name_prefix_rejected_witness :
    validate_path (str "/") (str "..config/settings.txt") (str "/proj") = none ∧
    abspath (str "/") (joinPath (str "/proj") (normpath (str "..config/settings.txt"))) =
      str "/proj" ++ '/' :: normpath (str "..config/settings.txt") ∧
    (str "/proj" ++ ['/']).isPrefixOf
      (abspath (str "/") (joinPath (str "/proj")
        (normpath (str "..config/settings.txt")))) = true ∧
    abspath (str "/") (joinPath (str "/proj")
      (normpath (str "..config/settings.txt"))) ≠ str "/proj" :=
  C9_dotdot_name_prefix_rejected (str "/") (str "..config/settings.txt") (str "/proj")
    [str "proj"] [str "..config", str "settings.txt"]
    (by decide) (by decide) (by decide) (by decide) (by decide) (by decide) (by decide)

/-! ### Matcher step lemmas -/

theorem matchItems_lit_pos {cs : List Char} {st : MState} (items : List RItem)
    (h : cs.isPrefixOf st.rest = true) :
    matchItems (.lit cs :: items) st =
      matchItems items
        { st with
          rest := st.rest.drop cs.length
          bol := match cs.getLast? with
                 | some c => c = '\n'
                 | none => st.bol } := by
  simp [matchItems, h]

theorem matchItems_lit_neg {cs : List Char} {st : MState} (items : List RItem)
    (h : cs.isPrefixOf st.rest = false) :
    matchItems (.lit cs :: items) st = none := by
  simp [matchItems, h]

theorem matchItems_bol_pos {st : MState} (items : List RItem) (h : st.bol = true) :
    matchItems (.bol :: items) st = matchItems items st := by
  simp [matchItems, h]

theorem matchItems_bol_neg {st : MState} (items : List RItem) (h : st.bol = false) :
    matchItems (.bol :: items) st = none := by
  simp [matchItems, h]

theorem matchItems_grpOpen {st : MState} (n : Nat) (items : List RItem) :
    matchItems (.grpOpen n :: items) st =
      matchItems items { st with opens := (n, st.rest) :: st.opens } := rfl

theorem matchItems_grpClose {st : MState} (n : Nat) (items : List RItem) :
    matchItems (.grpClose n :: items) st =
      matchItems items
        { st with
          caps := st.caps ++
            [(n, (((st.opens.lookup n).getD st.rest)).take
                ((((st.opens.lookup n).getD st.rest)).length - st.rest.length))] } := rfl

theorem matchItems_cls {q : Char → Bool} {plus lzy : Bool} {st : MState}
    (items : List RItem) :
    matchItems (.cls q plus lzy :: items) st =
      (let run := (st.rest.takeWhile q).length
       let lo := if plus then 1 else 0
       let ks := if lzy then List.range' lo (run + 1 - lo)
                 else (List.range' lo (run + 1 - lo)).reverse
       ks.findSome? fun k => matchItems items (st.consume k)) := rfl

/-! ### Prefix tools -/

/-- For a needle without newlines, being a prefix of `L ++ '\n' :: B` does
not depend on `B`. -/
theorem isPrefixOf_line_indep {pre : List Char} (hnl : '\n' ∉ pre) :
    ∀ (L B : List Char),
      pre.isPrefixOf (L ++ '\n' :: B) = pre.isPrefixOf (L ++ ['\n']) := by
  induction pre with
  | nil => intro L B; simp [List.isPrefixOf]
  | cons p0 pre ih =>
      intro L B
      have hp0 : ¬p0 = '\n' := fun h => hnl (by simp [h])
      cases L with
      | nil =>
          simp only [List.nil_append, List.isPrefixOf]
          have h0 : (p0 == '\n') = false := by simpa using hp0
          simp [h0]
      | cons c L =>
          simp only [List.cons_append, List.isPrefixOf, List.append_eq]
          rw [ih (fun h => hnl (by simp [h])) L B]

/-- For a nonempty needle without newlines, being a prefix of `L ++ ['\n']`
is the same as being a prefix of `L`. -/
theorem isPrefixOf_append_nl {pre : List Char} (hne : pre ≠ []) (hnl : '\n' ∉ pre) :
    ∀ L : List Char, pre.isPrefixOf (L ++ ['\n']) = pre.isPrefixOf L := by
  induction pre with
  | nil => exact absurd rfl hne
  | cons p0 pre ih =>
      intro L
      have hp0 : ¬p0 = '\n' := fun h => hnl (by simp [h])
      cases L with
      | nil =>
          simp only [List.nil_append, List.isPrefixOf]
          have h0 : (p0 == '\n') = false := by simpa using hp0
          simp [h0]
      | cons c L =>
          simp only [List.cons_append, List.isPrefixOf, List.append_eq]
          by_cases hpre : pre = []
          · subst hpre
            simp [List.isPrefixOf]
          · rw [ih hpre (fun h => hnl (by simp [h])) L]




theorem matchItems_star_greedy (q : Char → Bool) (items : List RItem) (st : MState) :
    matchItems (.cls q false false :: items) st =
      ((List.range' 0 ((st.rest.takeWhile q).length + 1)).reverse).findSome?
        (fun k => matchItems items (st.consume k)) := by
  simp [matchItems]

theorem matchItems_star_lazy (q : Char → Bool) (items : List RItem) (st : MState) :
    matchItems (.cls q false true :: items) st =
      (List.range' 0 ((st.rest.takeWhile q).length + 1)).findSome?
        (fun k => matchItems items (st.consume k)) := by
  simp [matchItems]

theorem matchItems_plus_lazy (q : Char → Bool) (items : List RItem) (st : MState) :
    matchItems (.cls q true true :: items) st =
      (List.range' 1 ((st.rest.takeWhile q).length)).findSome?
        (fun k => matchItems items (st.consume k)) := by
  simp [matchItems]

theorem matchItems_plus_greedy (q : Char → Bool) (items : List RItem) (st : MState) :
    matchItems (.cls q true false :: items) st =
      ((List.range' 1 ((st.rest.takeWhile q).length)).reverse).findSome?
        (fun k => matchItems items (st.consume k)) := by
  simp [matchItems]

/-- Greedy class star followed by a literal starting with a character
outside the class: exactly the maximal run is consumed (shorter
repetitions cannot satisfy the literal). -/
theorem greedyStar_then_lit {q : Char → Bool} {c0 : Char} (cs' : List Char)
    (hc0 : q c0 = false) (items : List RItem) (st : MState) :
    matchItems (.cls q false false :: .lit (c0 :: cs') :: items) st =
      matchItems (.lit (c0 :: cs') :: items)
        (st.consume (st.rest.takeWhile q).length) := by
  rw [matchItems_star_greedy]
  have hfailk : ∀ k ∈ (List.range' 0 ((st.rest.takeWhile q).length)).reverse,
      matchItems (.lit (c0 :: cs') :: items) (st.consume k) = none := by
    intro k hk
    rw [List.mem_reverse, List.mem_range'] at hk
    have hklt : k < (st.rest.takeWhile q).length := by omega
    apply matchItems_lit_neg
    have hsplit : st.rest = st.rest.takeWhile q ++ st.rest.dropWhile q :=
      (List.takeWhile_append_dropWhile (p := q) (l := st.rest)).symm
    have hdrop : (st.consume k).rest =
        (st.rest.takeWhile q).drop k ++ st.rest.dropWhile q := by
      show st.rest.drop k = _
      conv_lhs => rw [hsplit]
      exact List.drop_append_of_le_length (by omega)
    have hget : (st.rest.takeWhile q).drop k =
        (st.rest.takeWhile q)[k] :: (st.rest.takeWhile q).drop (k + 1) :=
      List.drop_eq_getElem_cons hklt
    have hq : q ((st.rest.takeWhile q)[k]) = true :=
      List.mem_takeWhile_imp (List.getElem_mem hklt)
    have hne : (c0 == (st.rest.takeWhile q)[k]) = false := by
      simp only [beq_eq_false_iff_ne, ne_eq]
      intro hcc
      rw [← hcc] at hq
      rw [hq] at hc0
      cases hc0
    rw [hdrop, hget]
    simp [List.isPrefixOf, hne]
  rw [List.range'_1_concat]
  simp only [Nat.zero_add, List.reverse_append, List.reverse_cons, List.reverse_nil,
    List.nil_append, List.singleton_append]
  rw [List.findSome?_cons]
  cases hm : matchItems (.lit (c0 :: cs') :: items)
      (st.consume (st.rest.takeWhile q).length) with
  | some r => rfl
  | none => exact List.findSome?_eq_none_iff.mpr hfailk

theorem takeWhile_true (l : List Char) : (l.takeWhile fun _ => true) = l := by
  induction l with
  | nil => rfl
  | cons c t ih => simp [List.takeWhile, ih]

theorem findSome?_range'_first {α : Type} {f : Nat → Option α} {lo len k0 : Nat} {r : α}
    (hin : lo ≤ k0) (hlt : k0 < lo + len)
    (hfail : ∀ j, lo ≤ j → j < k0 → f j = none) (hsucc : f k0 = some r) :
    (List.range' lo len).findSome? f = some r := by
  induction len generalizing lo with
  | zero => omega
  | succ n ih =>
      rw [List.range'_succ, List.findSome?_cons]
      by_cases hk : k0 = lo
      · subst hk
        rw [hsucc]
      · rw [hfail lo (Nat.le_refl lo) (by omega)]
        exact ih (by omega) (by omega) (fun j h1 h2 => hfail j (by omega) h2)

/-- A lazy `.*?` (or `.+?`) wildcard consumes exactly up to the first
position at which the continuation succeeds. -/
theorem lazyAny_first_success {plus : Bool} (items : List RItem) (st : MState)
    (k0 : Nat) (res : MState)
    (hk0 : k0 ≤ st.rest.length) (hlo : plus = true → 1 ≤ k0)
    (hfail : ∀ j, (if plus then 1 else 0) ≤ j → j < k0 →
      matchItems items (st.consume j) = none)
    (hsucc : matchItems items (st.consume k0) = some res) :
    matchItems (.cls (fun _ => true) plus true :: items) st = some res := by
  cases plus with
  | false =>
      rw [matchItems_star_lazy, takeWhile_true]
      exact findSome?_range'_first (Nat.zero_le k0) (by omega)
        (fun j h1 h2 => hfail j (by simpa using h1) h2) hsucc
  | true =>
      rw [matchItems_plus_lazy, takeWhile_true]
      exact findSome?_range'_first (hlo rfl) (by have := hlo rfl; omega)
        (fun j h1 h2 => hfail j (by simpa using h1) h2) hsucc


/-- For a needle without newlines, being a prefix is unaffected by text
appended after a trailing newline. -/
theorem prefix_stable_of_last_nl {pre s : List Char} (hnl : '\n' ∉ pre)
    (hlast : s.getLast? = some '\n') (z : List Char) :
    pre.isPrefixOf (s ++ z) = pre.isPrefixOf s := by
  rcases List.eq_nil_or_concat s with rfl | ⟨a, c, rfl⟩
  · simp at hlast
  · rw [List.concat_eq_append] at *
    rw [List.getLast?_concat] at hlast
    obtain rfl : c = '\n' := by simpa using hlast
    rw [List.append_assoc]
    have h1 : (['\n'] : List Char) ++ z = '\n' :: z := rfl
    rw [h1, isPrefixOf_line_indep hnl a z]

/-- No line start strictly inside `s` (position 0 of a suffix following a
newline) begins with `pre`. -/
def bolSafe (pre : List Char) : List Char → Bool
  | [] => true
  | c :: t => (if c = '\n' then ¬pre.isPrefixOf t else true) && bolSafe pre t

theorem bolSafe_cons_of_ne {pre : List Char} {c : Char} {t : List Char}
    (hc : ¬c = '\n') : bolSafe pre (c :: t) = bolSafe pre t := by
  simp [bolSafe, hc]

theorem bolSafe_cons_nl {pre : List Char} {t : List Char} :
    bolSafe pre ('\n' :: t) = (!pre.isPrefixOf t && bolSafe pre t) := by
  rw [bolSafe]
  cases h : pre.isPrefixOf t <;> simp [h]

theorem bolSafe_tail {pre : List Char} {c : Char} {t : List Char}
    (h : bolSafe pre (c :: t) = true) : bolSafe pre t = true := by
  rw [bolSafe, Bool.and_eq_true] at h
  exact h.2

theorem bolSafe_append_no_nl {pre : List Char} :
    ∀ {a : List Char} (t : List Char), (∀ ch ∈ a, ¬ch = '\n') →
      bolSafe pre (a ++ t) = bolSafe pre t
  | [], t, _ => rfl
  | c :: a, t, h => by
      rw [List.cons_append, bolSafe_cons_of_ne (h c (by simp))]
      exact bolSafe_append_no_nl t (fun ch hch => h ch (by simp [hch]))

theorem bolSafe_append {pre : List Char} (hpre_nl : '\n' ∉ pre) :
    ∀ (a b : List Char), bolSafe pre a = true → bolSafe pre b = true →
      pre.isPrefixOf b = false → (a = [] ∨ a.getLast? = some '\n') →
      bolSafe pre (a ++ b) = true
  | [], b, _, hb, _, _ => by simpa using hb
  | ch :: t, b, ha, hb, hb0, hend => by
      have hlast : (ch :: t).getLast? = some '\n' := by
        rcases hend with h | h
        · cases h
        · exact h
      have hend' : t = [] ∨ t.getLast? = some '\n' := by
        cases t with
        | nil => exact Or.inl rfl
        | cons x xs =>
            right
            rw [List.getLast?_cons_cons] at hlast
            exact hlast
      have hrec := bolSafe_append hpre_nl t b (bolSafe_tail ha) hb hb0 hend'
      by_cases hch : ch = '\n'
      · subst hch
        rw [List.cons_append, bolSafe_cons_nl]
        have hpf : pre.isPrefixOf (t ++ b) = false := by
          rcases hend' with h | h
          · subst h
            simpa using hb0
          · rw [prefix_stable_of_last_nl hpre_nl h]
            rw [bolSafe_cons_nl, Bool.and_eq_true] at ha
            simpa using ha.1
        simp [hpf, hrec]
      · rw [List.cons_append, bolSafe_cons_of_ne hch]
        exact hrec

theorem bolSafe_drop {pre : List Char} :
    ∀ (s : List Char) (j : Nat), bolSafe pre s = true → 1 ≤ j → j ≤ s.length →
      s[j - 1]? = some '\n' → pre.isPrefixOf (s.drop j) = false
  | [], _, _, h1, h2, _ => by simp at h2; omega
  | c :: t, 1, hs, _, _, hg => by
      have hc : c = '\n' := by simpa using hg
      subst hc
      rw [bolSafe_cons_nl, Bool.and_eq_true] at hs
      simpa using hs.1
  | c :: t, j + 2, hs, _, h2, hg => by
      have := bolSafe_drop t (j + 1) (bolSafe_tail hs) (by omega)
        (by simp at h2; omega) (by simpa using hg)
      simpa using this

theorem consume_zero (st : MState) : st.consume 0 = st := rfl

theorem consume_rest (st : MState) (k : Nat) :
    (st.consume k).rest = st.rest.drop k := rfl

/-- Greedy `\s*` followed by the literal `"\n"`, at a position whose text is
a newline followed by a non-whitespace character: exactly the newline is
consumed (the greedy run would eat it, then backtracks one step). -/
theorem wsStar_then_nl {st : MState} {d : Char} {r : List Char} (items : List RItem)
    (hrest : st.rest = '\n' :: d :: r) (hd : isWs d = false) :
    matchItems (wsStar :: .lit (str "\n") :: items) st =
      matchItems items { st with rest := d :: r, bol := true } := by
  have hnl : isWs '\n' = true := by decide
  have hrun : (st.rest.takeWhile isWs).length = 1 := by
    rw [hrest]
    simp [List.takeWhile_cons, hnl, hd]
  show matchItems (RItem.cls isWs false false :: _) st = _
  rw [matchItems_star_greedy, hrun]
  have hr2 : (List.range' 0 (1 + 1)).reverse = [1, 0] := rfl
  rw [hr2, List.findSome?_cons]
  have h1 : matchItems (.lit (str "\n") :: items) (st.consume 1) = none := by
    apply matchItems_lit_neg
    have hc1 : (st.consume 1).rest = d :: r := by
      rw [consume_rest, hrest]
      rfl
    rw [hc1]
    have hdd : (('\n' : Char) == d) = false := by
      simp only [beq_eq_false_iff_ne, ne_eq]
      intro h
      rw [← h] at hd
      rw [hnl] at hd
      cases hd
    simp [str, List.isPrefixOf, hdd]
  rw [h1, List.findSome?_cons]
  have h0 : matchItems (.lit (str "\n") :: items) (st.consume 0) =
      matchItems items { st with rest := d :: r, bol := true } := by
    rw [consume_zero,
      matchItems_lit_pos items (by rw [hrest]; simp [str, List.isPrefixOf])]
    have hrec : ({ st with
        rest := st.rest.drop (str "\n").length
        bol := match (str "\n").getLast? with
               | some c => c = '\n'
               | none => st.bol } : MState) =
        { st with rest := d :: r, bol := true } := by
      rw [hrest]
      rfl
    rw [hrec]
  rw [h0]
  cases hm : matchItems items { st with rest := d :: r, bol := true } with
  | some res => rfl
  | none => rfl

theorem grpClose_bol_fail {st : MState} (n : Nat) (items2 : List RItem)
    (h : st.bol = false) :
    matchItems (.grpClose n :: .bol :: items2) st = none := by
  rw [matchItems_grpClose]
  exact matchItems_bol_neg _ h

theorem grpClose_bol_lit_fail {st : MState} (n : Nat) (pre : List Char)
    (items2 : List RItem) (hpre : pre.isPrefixOf st.rest = false) :
    matchItems (.grpClose n :: .bol :: .lit pre :: items2) st = none := by
  rw [matchItems_grpClose]
  cases hb : st.bol with
  | false => exact matchItems_bol_neg _ rfl
  | true =>
      rw [matchItems_bol_pos _ rfl]
      exact matchItems_lit_neg _ hpre

/-- Inside a body whose interior line starts never begin with `pre` and
which ends with a newline, the continuation `grpClose; ^; pre…` fails at
every position strictly before the end of the body. -/
theorem endScan_fail (pre : List Char) (n : Nat) (items2 : List RItem) (st : MState)
    (body z : List Char) (hrest : st.rest = body ++ z) (hbol : st.bol = true)
    (hpre_nl : '\n' ∉ pre)
    (hend : body.getLast? = some '\n')
    (hsafe0 : pre.isPrefixOf body = false) (hsafe : bolSafe pre body = true) :
    ∀ j, j < body.length →
      matchItems (.grpClose n :: .bol :: .lit pre :: items2) (st.consume j) = none := by
  intro j hj
  match j with
  | 0 =>
      rw [consume_zero]
      apply grpClose_bol_lit_fail
      rw [hrest, prefix_stable_of_last_nl hpre_nl hend z]
      exact hsafe0
  | j + 1 =>
      have hjle : j + 1 ≤ body.length := by omega
      have htake : (st.rest.take (j + 1)) = body.take (j + 1) := by
        rw [hrest]
        exact List.take_append_of_le_length hjle
      have hblast : (st.rest.take (j + 1)).getLast? = body[j]? := by
        rw [htake, List.getLast?_eq_getElem?]
        have hlen : (body.take (j + 1)).length = j + 1 := by
          rw [List.length_take]
          omega
        rw [hlen]
        simpa using List.getElem?_take_of_lt (l := body) (n := j + 1) (i := j) (by omega)
      have hbolval : (st.consume (j + 1)).bol =
          (match body[j]? with
           | some c => decide (c = '\n')
           | none => st.bol) := by
        show (match (st.rest.take (j + 1)).getLast? with
              | some c => decide (c = '\n')
              | none => st.bol) = _
        rw [hblast]
      have hgj : ∃ cj, body[j]? = some cj := by
        have : j < body.length := by omega
        exact ⟨body[j], List.getElem?_eq_getElem this⟩
      obtain ⟨cj, hcj⟩ := hgj
      by_cases hcnl : cj = '\n'
      · subst hcnl
        apply grpClose_bol_lit_fail
        rw [consume_rest, hrest, List.drop_append_of_le_length hjle]
        have hdroplast : (body.drop (j + 1)).getLast? = some '\n' := by
          rcases List.eq_nil_or_concat body with rfl | ⟨b', c, rfl⟩
          · simp at hj
          · rw [List.concat_eq_append] at *
            rw [List.getLast?_concat] at hend
            obtain rfl : c = '\n' := by simpa using hend
            have hjb : j + 1 ≤ b'.length := by
              rw [List.length_append] at hj
              simp at hj
              omega
            rw [List.drop_append_of_le_length hjb, List.getLast?_concat]
        rw [prefix_stable_of_last_nl hpre_nl hdroplast z]
        exact bolSafe_drop body (j + 1) hsafe (by omega) hjle (by simpa using hcj)
      · apply grpClose_bol_fail
        rw [hbolval, hcj]
        simpa using hcnl

theorem takeWhile_append_of_not_all {q : Char → Bool} :
    ∀ (a b : List Char), a.all q = false → (a ++ b).takeWhile q = a.takeWhile q
  | [], _, h => by simp at h
  | c :: a, b, h => by
      by_cases hc : q c = true
      · rw [List.cons_append, List.takeWhile_cons_of_pos hc,
          List.takeWhile_cons_of_pos hc,
          takeWhile_append_of_not_all a b (by simpa [hc] using h)]
      · rw [List.cons_append, List.takeWhile_cons_of_neg hc,
          List.takeWhile_cons_of_neg hc]

theorem dropWhile_append_of_not_all {q : Char → Bool} :
    ∀ (a b : List Char), a.all q = false → (a ++ b).dropWhile q = a.dropWhile q ++ b
  | [], _, h => by simp at h
  | c :: a, b, h => by
      by_cases hc : q c = true
      · rw [List.cons_append, List.dropWhile_cons_of_pos hc,
          List.dropWhile_cons_of_pos hc,
          dropWhile_append_of_not_all a b (by simpa [hc] using h)]
      · rw [List.cons_append, List.dropWhile_cons_of_neg hc,
          List.dropWhile_cons_of_neg hc, List.cons_append]

theorem drop_takeWhile_length (q : Char → Bool) : ∀ l : List Char,
    l.drop (l.takeWhile q).length = l.dropWhile q
  | [] => rfl
  | c :: t => by
      by_cases hc : q c = true
      · rw [List.takeWhile_cons_of_pos hc, List.dropWhile_cons_of_pos hc]
        simpa using drop_takeWhile_length q t
      · rw [List.takeWhile_cons_of_neg hc, List.dropWhile_cons_of_neg hc]
        rfl

theorem mem_of_mem_dropWhile {q : Char → Bool} {a : Char} :
    ∀ {l : List Char}, a ∈ l.dropWhile q → a ∈ l
  | [], h => h
  | c :: t, h => by
      by_cases hc : q c = true
      · rw [List.dropWhile_cons_of_pos hc] at h
        exact List.mem_cons_of_mem _ (mem_of_mem_dropWhile h)
      · rw [List.dropWhile_cons_of_neg hc] at h
        exact h

theorem getLast?_drop_of_lt {p : List Char} {j : Nat} (hj : j < p.length) :
    (p.drop j).getLast? = p.getLast? := by
  rcases List.eq_nil_or_concat p with rfl | ⟨a, c, rfl⟩
  · simp at hj
  · rw [List.concat_eq_append] at *
    have hja : j ≤ a.length := by
      rw [List.length_append] at hj
      simp at hj
      omega
    rw [List.drop_append_of_le_length hja, List.getLast?_concat, List.getLast?_concat]

/-- The continuation `grpClose; \s*; "====="…` fails when consuming a
proper nonempty prefix of a path with no `=` characters and a
non-whitespace final character. -/
theorem pathScan_fail (p z : List Char) (st : MState) (n : Nat)
    (items2 : List RItem) (hrest : st.rest = p ++ z)
    (hnoeq : p.all (fun ch => ¬(ch = '\n' ∨ ch = '=')) = true)
    (hlast : ∀ l, p.getLast? = some l → isWs l = false) :
    ∀ j, 1 ≤ j → j < p.length →
      matchItems (.grpClose n :: wsStar :: .lit (str "=====") :: items2)
        (st.consume j) = none := by
  intro j h1 hj
  rw [matchItems_grpClose]
  have heq : str "=====" = '=' :: str "====" := rfl
  rw [heq, show wsStar = RItem.cls isWs false false from rfl,
    greedyStar_then_lit (str "====") (by decide)]
  apply matchItems_lit_neg
  rw [consume_rest, drop_takeWhile_length]
  have hrest2 : (st.consume j).rest = p.drop j ++ z := by
    rw [consume_rest, hrest]
    exact List.drop_append_of_le_length (by omega)
  have hlp : ∃ l, p.getLast? = some l := by
    rcases List.eq_nil_or_concat p with rfl | ⟨a, c, rfl⟩
    · simp at hj
    · rw [List.concat_eq_append, List.getLast?_concat]
      exact ⟨c, rfl⟩
  obtain ⟨l, hl⟩ := hlp
  have hlmem : l ∈ p.drop j := by
    apply List.mem_of_mem_getLast?
    rw [getLast?_drop_of_lt hj]
    exact hl
  have hnotall : (p.drop j).all isWs = false :=
    List.all_eq_false.mpr ⟨l, hlmem, by simp [hlast l hl]⟩
  show ('=' :: str "====").isPrefixOf
      (List.dropWhile isWs (MState.rest _)) = false
  rw [hrest2, dropWhile_append_of_not_all _ _ hnotall]
  rcases hdw : (p.drop j).dropWhile isWs with _ | ⟨d, t⟩
  · exfalso
    rw [List.dropWhile_eq_nil_iff] at hdw
    have := hdw l hlmem
    rw [hlast l hl] at this
    cases this
  · have hdmem : d ∈ p :=
      List.mem_of_mem_drop (mem_of_mem_dropWhile (q := isWs) (by rw [hdw]; simp))
    have hdok := List.all_eq_true.mp hnoeq d hdmem
    have hdne : (('=' : Char) == d) = false := by
      simp only [decide_eq_true_eq, not_or] at hdok
      simp only [beq_eq_false_iff_ne, ne_eq]
      exact fun h => hdok.2 h.symm
    simp [List.isPrefixOf, hdne]

/-! ### Chunk-step lemmas for walking a match through concrete text -/

theorem isPrefixOf_append_self (l t : List Char) : l.isPrefixOf (l ++ t) = true :=
  List.isPrefixOf_iff_prefix.mpr (List.prefix_append l t)

theorem takeWhile_append_of_all {q : Char → Bool} :
    ∀ (a b : List Char), a.all q = true → (a ++ b).takeWhile q = a ++ b.takeWhile q
  | [], _, _ => rfl
  | c :: a, b, h => by
      have hc : q c = true := by simp at h; exact h.1
      rw [List.cons_append, List.takeWhile_cons_of_pos hc, List.cons_append,
        takeWhile_append_of_all a b (by simp at h; exact List.all_eq_true.mpr h.2)]

theorem getLast?_append_right {b : List Char} (a : List Char) (h : b ≠ []) :
    (a ++ b).getLast? = b.getLast? := by
  rcases List.eq_nil_or_concat b with rfl | ⟨b', c, rfl⟩
  · exact absurd rfl h
  · rw [List.concat_eq_append, ← List.append_assoc, List.getLast?_concat,
      List.getLast?_concat]

theorem consume_cons (st : MState) (c : Char) (Y : List Char)
    (hrest : st.rest = c :: Y) :
    st.consume 1 = { st with rest := Y, bol := decide (c = '\n') } := by
  unfold MState.consume
  rw [hrest]
  rfl

theorem consume_append (st : MState) (a Y : List Char) (l : Char)
    (hrest : st.rest = a ++ Y) (hlast : a.getLast? = some l) :
    st.consume a.length = { st with rest := Y, bol := decide (l = '\n') } := by
  unfold MState.consume
  rw [hrest, List.drop_left, List.take_left, hlast]

theorem consume_append_rest (st : MState) (a Y : List Char) (hrest : st.rest = a ++ Y) :
    ∃ b, st.consume a.length = { st with rest := Y, bol := b } := by
  refine ⟨match ((a ++ Y).take a.length).getLast? with
          | some c => decide (c = '\n')
          | none => st.bol, ?_⟩
  unfold MState.consume
  rw [hrest, List.drop_left]

theorem matchItems_lit_chunk (cs Y : List Char) (lc : Char)
    (items : List RItem) (st : MState) (hrest : st.rest = cs ++ Y)
    (hlast : cs.getLast? = some lc) :
    matchItems (.lit cs :: items) st =
      matchItems items { st with rest := Y, bol := decide (lc = '\n') } := by
  have hpref : cs.isPrefixOf st.rest = true := by
    rw [hrest]; exact isPrefixOf_append_self cs Y
  rw [matchItems_lit_pos items hpref]
  have hA : ({ st with
      rest := st.rest.drop cs.length
      bol := match cs.getLast? with
             | some c => decide (c = '\n')
             | none => st.bol } : MState) =
      { st with rest := Y, bol := decide (lc = '\n') } := by
    rw [hrest, hlast, List.drop_left]
  rw [hA]

theorem grpClose_capture (n : Nat) (a : List Char) (items : List RItem) (st : MState)
    (hops : st.opens.lookup n = some (a ++ st.rest)) :
    matchItems (.grpClose n :: items) st =
      matchItems items { st with caps := st.caps ++ [(n, a)] } := by
  rw [matchItems_grpClose, hops]
  have hA : (some (a ++ st.rest)).getD st.rest = a ++ st.rest := rfl
  rw [hA]
  have hB : (a ++ st.rest).take ((a ++ st.rest).length - st.rest.length) = a := by
    rw [List.length_append, Nat.add_sub_cancel, List.take_left]
  rw [hB]

theorem greedyStar_first_success (q : Char → Bool) (items : List RItem)
    (st res : MState)
    (hsucc : matchItems items (st.consume (st.rest.takeWhile q).length) = some res) :
    matchItems (.cls q false false :: items) st = some res := by
  rw [matchItems_star_greedy, List.range'_1_concat]
  simp only [Nat.zero_add, List.reverse_append, List.reverse_cons, List.reverse_nil,
    List.nil_append, List.singleton_append]
  rw [List.findSome?_cons, hsucc]

theorem wsStar_lit_chunk (c0 : Char) (cs' Y : List Char) (lc : Char)
    (items : List RItem) (st : MState)
    (hrest : st.rest = ' ' :: ((c0 :: cs') ++ Y))
    (hc0 : isWs c0 = false)
    (hlast : (c0 :: cs').getLast? = some lc) :
    matchItems (wsStar :: .lit (c0 :: cs') :: items) st =
      matchItems items { st with rest := Y, bol := decide (lc = '\n') } := by
  rw [show wsStar = RItem.cls isWs false false from rfl, greedyStar_then_lit cs' hc0]
  have hrun : st.rest.takeWhile isWs = [' '] := by
    rw [hrest, List.takeWhile_cons_of_pos (by decide), List.cons_append,
      List.takeWhile_cons_of_neg (by rw [hc0]; decide)]
  rw [hrun, show (([' '] : List Char).length) = 1 from rfl,
    consume_cons st ' ' ((c0 :: cs') ++ Y) hrest,
    show (decide (' ' = '\n')) = false from by decide]
  exact matchItems_lit_chunk (c0 :: cs') Y lc items _ rfl hlast

theorem wsStar_group_chunk (p0 : Char) (pt Y : List Char) (items : List RItem)
    (st res : MState)
    (hrest : st.rest = ' ' :: ((p0 :: pt) ++ Y)) (hp0 : isWs p0 = false)
    (hsucc : matchItems items { st with rest := (p0 :: pt) ++ Y, bol := false } =
      some res) :
    matchItems (wsStar :: items) st = some res := by
  rw [show wsStar = RItem.cls isWs false false from rfl]
  apply greedyStar_first_success
  have hrun : st.rest.takeWhile isWs = [' '] := by
    rw [hrest, List.takeWhile_cons_of_pos (by decide), List.cons_append,
      List.takeWhile_cons_of_neg (by rw [hp0]; decide)]
  rw [hrun, show (([' '] : List Char).length) = 1 from rfl,
    consume_cons st ' ' ((p0 :: pt) ++ Y) hrest,
    show (decide (' ' = '\n')) = false from by decide]
  exact hsucc

/-! ### Well-formed paths and contents for the round trip -/

/-- Paths whose blocks survive the round trip: nonempty, free of newlines,
equals signs and backticks, non-whitespace at both ends, and with a purely
word-character extension. -/
def wfPath (p : List Char) : Bool :=
  !p.isEmpty &&
  p.all (fun ch => ¬(ch = '\n' ∨ ch = '=')) &&
  p.all (fun ch => ¬ch = '`') &&
  (match p.head? with | some h0 => !isWs h0 | none => false) &&
  (match p.getLast? with | some l0 => !isWs l0 | none => false) &&
  (extLstrip p).all isWordChar

/-- Contents whose blocks survive the round trip: no carriage returns, no
double trailing newline, and no line that starts with a marker run or a
code fence. -/
def wfContent (c : List Char) : Bool :=
  c.all (fun ch => ¬ch = '\r') &&
  !pyEndsWith c (str "\n\n") &&
  !(str "=====").isPrefixOf c && bolSafe (str "=====") c &&
  !(str "```").isPrefixOf c && bolSafe (str "```") c

theorem wfPath_parts {p : List Char} (h : wfPath p = true) :
    p ≠ [] ∧
    p.all (fun ch => ¬(ch = '\n' ∨ ch = '=')) = true ∧
    p.all (fun ch => ¬ch = '`') = true ∧
    (∀ h0, p.head? = some h0 → isWs h0 = false) ∧
    (∀ l0, p.getLast? = some l0 → isWs l0 = false) ∧
    (extLstrip p).all isWordChar = true := by
  unfold wfPath at h
  simp only [Bool.and_eq_true] at h
  obtain ⟨⟨⟨⟨⟨h1, h2⟩, h3⟩, h4⟩, h5⟩, h6⟩ := h
  refine ⟨?_, h2, h3, ?_, ?_, h6⟩
  · intro he; rw [he] at h1; simp at h1
  · intro h0 hh; rw [hh] at h4; simpa using h4
  · intro l0 hl; rw [hl] at h5; simpa using h5

theorem wfContent_parts {c : List Char} (h : wfContent c = true) :
    c.all (fun ch => ¬ch = '\r') = true ∧
    pyEndsWith c (str "\n\n") = false ∧
    (str "=====").isPrefixOf c = false ∧ bolSafe (str "=====") c = true ∧
    (str "```").isPrefixOf c = false ∧ bolSafe (str "```") c = true := by
  unfold wfContent at h
  simp only [Bool.and_eq_true] at h
  obtain ⟨⟨⟨⟨⟨h1, h2⟩, h3⟩, h4⟩, h5⟩, h6⟩ := h
  exact ⟨h1, by simpa using h2, by simpa using h3, h4, by simpa using h5, h6⟩

theorem ensureTrailingNewline_getLast (c : List Char) :
    (ensureTrailingNewline c).getLast? = some '\n' := by
  unfold ensureTrailingNewline
  by_cases h : pyEndsWith c (str "\n") = true
  · rw [if_pos h]
    unfold pyEndsWith at h
    have hs : (str "\n") <:+ c := List.isSuffixOf_iff_suffix.mp h
    obtain ⟨d, hd⟩ := hs
    rw [← hd, show str "\n" = ['\n'] from rfl, List.getLast?_concat]
  · rw [if_neg h, show str "\n" = ['\n'] from rfl, List.getLast?_concat]

theorem bolSafe_snoc_nl {pre : List Char} (hne : pre ≠ []) (hnl : '\n' ∉ pre) :
    ∀ (s : List Char), bolSafe pre s = true → bolSafe pre (s ++ ['\n']) = true
  | [], _ => by
      rw [List.nil_append, bolSafe_cons_nl]
      have hp : pre.isPrefixOf ([] : List Char) = false := by
        cases pre with
        | nil => exact absurd rfl hne
        | cons a t => rfl
      simp [hp, bolSafe]
  | c :: t, h => by
      by_cases hc : c = '\n'
      · subst hc
        rw [bolSafe_cons_nl, Bool.and_eq_true] at h
        rw [List.cons_append, bolSafe_cons_nl, isPrefixOf_append_nl hne hnl t]
        simp only [Bool.and_eq_true]
        exact ⟨h.1, bolSafe_snoc_nl hne hnl t h.2⟩
      · rw [List.cons_append, bolSafe_cons_of_ne hc]
        rw [bolSafe_cons_of_ne hc] at h
        exact bolSafe_snoc_nl hne hnl t h

theorem wfContent_transfer (pre c : List Char) (hne : pre ≠ [])
    (hnl : '\n' ∉ pre) (h0 : pre.isPrefixOf c = false) (hs : bolSafe pre c = true) :
    pre.isPrefixOf (ensureTrailingNewline c) = false ∧
    bolSafe pre (ensureTrailingNewline c) = true := by
  unfold ensureTrailingNewline
  by_cases h : pyEndsWith c (str "\n") = true
  · rw [if_pos h]; exact ⟨h0, hs⟩
  · rw [if_neg h, show str "\n" = ['\n'] from rfl]
    exact ⟨by rw [isPrefixOf_append_nl hne hnl c]; exact h0,
           bolSafe_snoc_nl hne hnl c hs⟩

theorem pyEndsWith_snoc_nl (c : List Char) :
    pyEndsWith (c ++ ['\n']) (str "\n\n") = pyEndsWith c (str "\n") := by
  unfold pyEndsWith List.isSuffixOf
  rw [show (str "\n\n").reverse = '\n' :: ['\n'] from by decide,
    show (str "\n").reverse = ['\n'] from by decide,
    List.reverse_append, show (['\n'] : List Char).reverse = ['\n'] from rfl]
  simp [List.isPrefixOf]

theorem ensure_no_cr (c : List Char) (h : c.all (fun ch => ¬ch = '\r') = true) :
    (ensureTrailingNewline c).all (fun ch => ¬ch = '\r') = true := by
  unfold ensureTrailingNewline
  by_cases hb : pyEndsWith c (str "\n") = true
  · rw [if_pos hb]; exact h
  · rw [if_neg hb, List.all_append]
    simp only [h]
    decide

theorem ensure_not_nn (c : List Char) (h : pyEndsWith c (str "\n\n") = false) :
    pyEndsWith (ensureTrailingNewline c) (str "\n\n") = false := by
  unfold ensureTrailingNewline
  by_cases hb : pyEndsWith c (str "\n") = true
  · rw [if_pos hb]; exact h
  · rw [if_neg hb, show str "\n" = ['\n'] from rfl, pyEndsWith_snoc_nl]
    simpa using hb

theorem dropWhile_head_neg {q : Char → Bool} {l : List Char}
    (h : ∀ h0, l.head? = some h0 → q h0 = false) : l.dropWhile q = l := by
  cases l with
  | nil => rfl
  | cons c t => exact List.dropWhile_cons_of_neg (by simp [h c rfl])

theorem pyStrip_id {p : List Char}
    (hh : ∀ h0, p.head? = some h0 → isWs h0 = false)
    (hl : ∀ l0, p.getLast? = some l0 → isWs l0 = false) :
    pyStrip p = p := by
  unfold pyStrip
  rw [dropWhile_head_neg hh]
  rw [dropWhile_head_neg (fun h0 hh0 => hl h0 (by rwa [List.head?_reverse] at hh0))]
  exact List.reverse_reverse p

theorem isWordChar_ne_nl {ch : Char} (h : isWordChar ch = true) : ¬ch = '\n' := by
  intro he; subst he; exact absurd h (by decide)

theorem isWordChar_ne_tick {ch : Char} (h : isWordChar ch = true) : ¬ch = '`' := by
  intro he; subst he; exact absurd h (by decide)

theorem normalizeLineEndings_cons_ne (c : Char) (t : List Char) (hc : ¬c = '\r') :
    normalizeLineEndings (c :: t) = c :: normalizeLineEndings t := by
  rw [normalizeLineEndings.eq_def]
  split
  next heq => exact absurd heq (by simp)
  next rest heq =>
    rw [List.cons_eq_cons] at heq
    exact absurd heq.1 hc
  next rest heq =>
    rw [List.cons_eq_cons] at heq
    exact absurd heq.1 hc
  next c2 rest heq =>
    rw [List.cons_eq_cons] at heq
    rw [heq.1, heq.2]

theorem normalizeLineEndings_no_cr :
    ∀ (s : List Char), s.all (fun ch => ¬ch = '\r') = true →
      normalizeLineEndings s = s
  | [], _ => rfl
  | c :: t, h => by
      have hc : ¬c = '\r' := by simp at h; exact h.1
      have ht : t.all (fun ch => ¬ch = '\r') = true := by
        simp only [List.all_cons, Bool.and_eq_true] at h; exact h.2
      rw [normalizeLineEndings_cons_ne c t hc, normalizeLineEndings_no_cr t ht]

/-! ### The body of an emitted block, and its scanning properties -/

/-- The part of an emitted file block between the open-marker newline and
the start of the end marker (this is what group 2 of the block grammar
captures). -/
def blockBody (relPath content : List Char) : List Char :=
  str "```" ++ extLstrip relPath ++ str "\n" ++ ensureTrailingNewline content ++
  str "```\n"

theorem fileBlock_decomp (p c : List Char) :
    fileBlock p c =
      str "===== FILE: " ++ (p ++ (str " =====\n" ++ (blockBody p c ++
        (str "===== END FILE: " ++ (p ++ str " ====="))))) := by
  unfold fileBlock blockBody
  rw [show str " =====\n```" = str " =====\n" ++ str "```" from by decide,
    show str "```\n===== END FILE: " = str "```\n" ++ str "===== END FILE: " from
      by decide]
  simp [List.append_assoc]

theorem blockBody_getLast (p c : List Char) :
    (blockBody p c).getLast? = some '\n' := by
  unfold blockBody
  rw [getLast?_append_right _ (by decide)]
  decide

theorem blockBody_not_pre (p c : List Char) :
    (str "=====").isPrefixOf (blockBody p c) = false := by
  have hb : blockBody p c = '`' :: ('`' :: ('`' ::
      (extLstrip p ++ str "\n" ++ ensureTrailingNewline c ++ str "```\n"))) := rfl
  rw [hb]
  simp [str, List.isPrefixOf]

theorem blockBody_bolSafe (p c : List Char)
    (hext : (extLstrip p).all isWordChar = true)
    (hc0 : (str "=====").isPrefixOf (ensureTrailingNewline c) = false)
    (hcs : bolSafe (str "=====") (ensureTrailingNewline c) = true) :
    bolSafe (str "=====") (blockBody p c) = true := by
  have hb : blockBody p c = (str "```" ++ extLstrip p ++ str "\n") ++
      (ensureTrailingNewline c ++ str "```\n") := by
    unfold blockBody
    simp [List.append_assoc]
  rw [hb]
  apply bolSafe_append (by decide)
  · have hno : ∀ ch ∈ str "```" ++ extLstrip p, ¬ch = '\n' := by
      intro ch hch
      rcases List.mem_append.mp hch with h1 | h2
      · exact fun he => absurd (he ▸ h1) (by decide)
      · exact isWordChar_ne_nl (List.all_eq_true.mp hext ch h2)
    rw [bolSafe_append_no_nl (str "\n") hno]
    decide
  · apply bolSafe_append (by decide) _ _ hcs (by decide) (by decide)
      (Or.inr (ensureTrailingNewline_getLast c))
  · rw [prefix_stable_of_last_nl (by decide) (ensureTrailingNewline_getLast c)]
    exact hc0
  · right
    rw [getLast?_append_right _ (by decide)]
    decide

/-! ### Walking a full block match through the grammar -/

theorem matchItems_endPart (p rest' : List Char) (b0 : Bool)
    (ops : List (Nat × List Char)) (cps : Caps)
    (hpne : p ≠ [])
    (hnoeq : p.all (fun ch => ¬(ch = '\n' ∨ ch = '=')) = true)
    (hlastws : ∀ l, p.getLast? = some l → isWs l = false) :
    matchItems [.grpOpen 3, anyPlusLazy, .grpClose 3, wsStar, .lit (str "=====")]
      ⟨p ++ (str " =====" ++ rest'), b0, ops, cps⟩ =
      some ⟨rest', false, (3, p ++ (str " =====" ++ rest')) :: ops,
        cps ++ [(3, p)]⟩ := by
  rw [matchItems_grpOpen]
  obtain ⟨l, hl⟩ : ∃ l, p.getLast? = some l := by
    rcases List.eq_nil_or_concat p with rfl | ⟨a, ch, rfl⟩
    · exact absurd rfl hpne
    · rw [List.concat_eq_append, List.getLast?_concat]; exact ⟨ch, rfl⟩
  have hlne : (decide (l = '\n')) = false := by
    simp only [decide_eq_false_iff_not]
    intro hln
    have hws := hlastws l hl
    rw [hln] at hws
    exact absurd hws (by decide)
  apply lazyAny_first_success _ _ p.length
  · simp
  · intro _
    exact List.length_pos.mpr hpne
  · intro j h1 hj
    exact pathScan_fail p (str " =====" ++ rest') _ 3 [] rfl hnoeq hlastws j h1 hj
  · rw [consume_append _ p (str " =====" ++ rest') l rfl hl, hlne]
    rw [grpClose_capture 3 p _ _ (by simp [List.lookup])]
    rw [show str " =====" ++ rest' = ' ' :: ((str "=====") ++ rest') from rfl] at *
    rw [show (str "=====" : List Char) = '=' :: str "====" from rfl]
    rw [wsStar_lit_chunk '=' (str "====") rest' '=' [] _ rfl (by decide) (by decide)]
    rw [show (decide ('=' = '\n')) = false from by decide]
    rfl

theorem matchItems_bodyPart (p body rest' : List Char)
    (ops : List (Nat × List Char)) (cps : Caps)
    (hpne : p ≠ [])
    (hnoeq : p.all (fun ch => ¬(ch = '\n' ∨ ch = '=')) = true)
    (hlastws : ∀ l, p.getLast? = some l → isWs l = false)
    (hheadws : ∀ h0, p.head? = some h0 → isWs h0 = false)
    (hend : body.getLast? = some '\n')
    (hsafe0 : (str "=====").isPrefixOf body = false)
    (hsafe : bolSafe (str "=====") body = true) :
    matchItems [.grpOpen 2, anyStarLazy, .grpClose 2, .bol, .lit (str "====="), wsStar,
        .lit (str "END FILE:"), wsStar, .grpOpen 3, anyPlusLazy, .grpClose 3, wsStar,
        .lit (str "=====")]
      ⟨body ++ (str "===== END FILE: " ++ (p ++ (str " =====" ++ rest'))), true,
        ops, cps⟩ =
      some ⟨rest', false,
        (3, p ++ (str " =====" ++ rest')) ::
          (2, body ++ (str "===== END FILE: " ++ (p ++ (str " =====" ++ rest')))) ::
          ops,
        cps ++ [(2, body), (3, p)]⟩ := by
  rw [matchItems_grpOpen]
  apply lazyAny_first_success _ _ body.length
  · simp
  · intro h; simp at h
  · intro j h0 hj
    exact endScan_fail (str "=====") 2 _ _ body
      (str "===== END FILE: " ++ (p ++ (str " =====" ++ rest'))) rfl rfl (by decide)
      hend hsafe0 hsafe j hj
  · rw [consume_append _ body
      (str "===== END FILE: " ++ (p ++ (str " =====" ++ rest'))) '\n' rfl hend,
      show (decide ('\n' = '\n')) = true from by decide]
    rw [grpClose_capture 2 body _ _ (by simp [List.lookup])]
    rw [matchItems_bol_pos _ rfl]
    rw [show str "===== END FILE: " ++ (p ++ (str " =====" ++ rest')) =
      str "=====" ++ (str " END FILE: " ++ (p ++ (str " =====" ++ rest'))) from rfl]
    rw [matchItems_lit_chunk (str "=====")
      (str " END FILE: " ++ (p ++ (str " =====" ++ rest'))) '=' _ _ rfl (by decide)]
    rw [show (decide ('=' = '\n')) = false from by decide]
    rw [show str " END FILE: " ++ (p ++ (str " =====" ++ rest')) =
      ' ' :: (('E' :: str "ND FILE:") ++ (' ' :: (p ++ (str " =====" ++ rest'))))
      from rfl]
    rw [show (str "END FILE:" : List Char) = 'E' :: str "ND FILE:" from rfl]
    rw [wsStar_lit_chunk 'E' (str "ND FILE:")
      (' ' :: (p ++ (str " =====" ++ rest'))) ':' _ _ rfl (by decide) (by decide)]
    rw [show (decide (':' = '\n')) = false from by decide]
    obtain ⟨p0, pt, rfl⟩ : ∃ p0 pt, p = p0 :: pt := by
      cases p with
      | nil => exact absurd rfl hpne
      | cons a t => exact ⟨a, t, rfl⟩
    apply wsStar_group_chunk p0 pt (str " =====" ++ rest') _ _ _ rfl
      (hheadws p0 rfl)
    show matchItems [RItem.grpOpen 3, anyPlusLazy, RItem.grpClose 3, wsStar,
        RItem.lit (str "=====")]
      ⟨(p0 :: pt) ++ (str " =====" ++ rest'), false,
        (2, body ++ (str "===== END FILE: " ++
          ((p0 :: pt) ++ (str " =====" ++ rest')))) :: ops,
        cps ++ [(2, body)]⟩ = _
    rw [matchItems_endPart (p0 :: pt) rest' false _ _ hpne hnoeq hlastws]
    simp
    rfl

theorem wsStar_eq5_chunk (Y : List Char) (items : List RItem) (st : MState)
    (hrest : st.rest = ' ' :: (str "=====" ++ Y)) :
    matchItems (wsStar :: .lit (str "=====") :: items) st =
      matchItems items { st with rest := Y, bol := false } := by
  rw [show (str "=====" : List Char) = '=' :: str "====" from rfl] at hrest ⊢
  rw [wsStar_lit_chunk '=' (str "====") Y '=' items st hrest (by decide) (by decide)]
  rw [show (decide ('=' = '\n')) = false from by decide]

theorem tryMatch_fileBlock (p c rest' : List Char)
    (hp : wfPath p = true) (hc : wfContent c = true) :
    tryMatch FILE_BLOCK_PATTERN (fileBlock p c ++ rest') true =
      some ⟨rest', false,
        (3, p ++ (str " =====" ++ rest')) ::
          (2, blockBody p c ++ (str "===== END FILE: " ++
            (p ++ (str " =====" ++ rest')))) ::
          (1, p ++ (str " =====\n" ++ (blockBody p c ++ (str "===== END FILE: " ++
            (p ++ (str " =====" ++ rest')))))) :: [],
        [(1, p), (2, blockBody p c), (3, p)]⟩ := by
  obtain ⟨hpne, hnoeq, hnotick, hheadws, hlastws, hext⟩ := wfPath_parts hp
  obtain ⟨hcr, hnn, hpre1, hbs1, hpre2, hbs2⟩ := wfContent_parts hc
  obtain ⟨hpre1n, hbs1n⟩ :=
    wfContent_transfer (str "=====") c (by decide) (by decide) hpre1 hbs1
  have hbodyend := blockBody_getLast p c
  have hbody0 := blockBody_not_pre p c
  have hbodysafe := blockBody_bolSafe p c hext hpre1n hbs1n
  rw [fileBlock_decomp]
  rw [List.append_assoc, List.append_assoc, List.append_assoc, List.append_assoc,
    List.append_assoc, List.append_assoc]
  unfold tryMatch FILE_BLOCK_PATTERN
  rw [matchItems_bol_pos _ rfl]
  rw [show str "===== FILE: " ++ (p ++ (str " =====\n" ++ (blockBody p c ++
      (str "===== END FILE: " ++ (p ++ (str " =====" ++ rest')))))) =
    str "=====" ++ (str " FILE: " ++ (p ++ (str " =====\n" ++ (blockBody p c ++
      (str "===== END FILE: " ++ (p ++ (str " =====" ++ rest'))))))) from rfl]
  rw [matchItems_lit_chunk (str "=====") _ '=' _ _ rfl (by decide)]
  rw [show (decide ('=' = '\n')) = false from by decide]
  rw [show str " FILE: " ++ (p ++ (str " =====\n" ++ (blockBody p c ++
      (str "===== END FILE: " ++ (p ++ (str " =====" ++ rest')))))) =
    ' ' :: (('F' :: str "ILE:") ++ (' ' :: (p ++ (str " =====\n" ++ (blockBody p c ++
      (str "===== END FILE: " ++ (p ++ (str " =====" ++ rest')))))))) from rfl]
  rw [show (str "FILE:" : List Char) = 'F' :: str "ILE:" from rfl]
  rw [wsStar_lit_chunk 'F' (str "ILE:")
    (' ' :: (p ++ (str " =====\n" ++ (blockBody p c ++ (str "===== END FILE: " ++
      (p ++ (str " =====" ++ rest'))))))) ':' _ _ rfl (by decide) (by decide)]
  rw [show (decide (':' = '\n')) = false from by decide]
  obtain ⟨p0, pt, rfl⟩ : ∃ p0 pt, p = p0 :: pt := by
    cases p with
    | nil => exact absurd rfl hpne
    | cons a t => exact ⟨a, t, rfl⟩
  apply wsStar_group_chunk p0 pt
    (str " =====\n" ++ (blockBody (p0 :: pt) c ++ (str "===== END FILE: " ++
      ((p0 :: pt) ++ (str " =====" ++ rest'))))) _ _ _ rfl (hheadws p0 rfl)
  rw [matchItems_grpOpen]
  apply lazyAny_first_success _ _ (p0 :: pt).length
  · simp
  · intro _
    simp
  · intro j h1 hj
    exact pathScan_fail (p0 :: pt)
      (str " =====\n" ++ (blockBody (p0 :: pt) c ++ (str "===== END FILE: " ++
        ((p0 :: pt) ++ (str " =====" ++ rest'))))) _ 1 _ rfl hnoeq hlastws j h1 hj
  · obtain ⟨l, hl⟩ : ∃ l, (p0 :: pt).getLast? = some l := by
      rcases List.eq_nil_or_concat (p0 :: pt) with heq | ⟨a, ch, heq⟩
      · exact absurd heq (by simp)
      · rw [heq, List.concat_eq_append, List.getLast?_concat]
        exact ⟨ch, rfl⟩
    have hlne : (decide (l = '\n')) = false := by
      simp only [decide_eq_false_iff_not]
      intro hln
      have hws := hlastws l hl
      rw [hln] at hws
      exact absurd hws (by decide)
    rw [consume_append _ (p0 :: pt)
      (str " =====\n" ++ (blockBody (p0 :: pt) c ++ (str "===== END FILE: " ++
        ((p0 :: pt) ++ (str " =====" ++ rest'))))) l rfl hl, hlne]
    rw [grpClose_capture 1 (p0 :: pt) _ _ (by simp [List.lookup])]
    rw [wsStar_eq5_chunk ('\n' :: (blockBody (p0 :: pt) c ++ (str "===== END FILE: " ++
      ((p0 :: pt) ++ (str " =====" ++ rest'))))) _ _ rfl]
    rw [wsStar_then_nl _ (show _ = '\n' :: ('`' :: (('`' :: ('`' ::
        (extLstrip (p0 :: pt) ++ str "\n" ++ ensureTrailingNewline c ++
          str "```\n"))) ++ (str "===== END FILE: " ++
        ((p0 :: pt) ++ (str " =====" ++ rest'))))) from rfl) (by decide)]
    show matchItems [RItem.grpOpen 2, anyStarLazy, RItem.grpClose 2, RItem.bol,
        RItem.lit (str "====="), wsStar, RItem.lit (str "END FILE:"), wsStar,
        RItem.grpOpen 3, anyPlusLazy, RItem.grpClose 3, wsStar,
        RItem.lit (str "=====")]
      ⟨blockBody (p0 :: pt) c ++ (str "===== END FILE: " ++
          ((p0 :: pt) ++ (str " =====" ++ rest'))), true,
        (1, (p0 :: pt) ++ (str " =====\n" ++ (blockBody (p0 :: pt) c ++
          (str "===== END FILE: " ++ ((p0 :: pt) ++ (str " =====" ++ rest')))))) :: [],
        [(1, p0 :: pt)]⟩ = _
    rw [matchItems_bodyPart (p0 :: pt) (blockBody (p0 :: pt) c) rest' _ _
      hpne hnoeq hlastws hheadws hbodyend hbody0 hbodysafe]
    simp

/-! ### Stepping the finditer loop -/

theorem findAllAux_succ (pat : List RItem) (f : Nat) (s : List Char) (b : Bool) :
    findAllAux pat (f + 1) s b =
      (match tryMatch pat s b with
       | some st =>
           if st.rest.length < s.length then
             st.caps :: findAllAux pat f st.rest st.bol
           else
             st.caps :: (match s with
                         | [] => []
                         | c :: t => findAllAux pat f t (c = '\n'))
       | none =>
           match s with
           | [] => []
           | c :: t => findAllAux pat f t (c = '\n')) := rfl

theorem findAllAux_fuel_irrel (pat : List RItem) :
    ∀ (fuel fuel' : Nat) (s : List Char) (b : Bool),
      s.length + 1 ≤ fuel → s.length + 1 ≤ fuel' →
      findAllAux pat fuel s b = findAllAux pat fuel' s b := by
  intro fuel
  induction fuel with
  | zero =>
      intro fuel' s b h1 h2
      exact absurd h1 (by omega)
  | succ f ih =>
      intro fuel' s b h1 h2
      cases fuel' with
      | zero => exact absurd h2 (by omega)
      | succ f' =>
          rw [findAllAux_succ, findAllAux_succ]
          cases htm : tryMatch pat s b with
          | none =>
              cases s with
              | nil => rfl
              | cons ch t =>
                  simp only [List.length_cons] at h1 h2
                  exact ih f' t (decide (ch = '\n')) (by omega) (by omega)
          | some st =>
              by_cases hlt : st.rest.length < s.length
              · simp only [hlt, if_true]
                rw [ih f' st.rest st.bol (by omega) (by omega)]
              · simp only [hlt, if_false]
                cases s with
                | nil => rfl
                | cons ch t =>
                    simp only [List.length_cons] at h1 h2
                    exact congrArg (fun x => st.caps :: x)
                      (ih f' t (decide (ch = '\n')) (by omega) (by omega))

theorem findAllAux_to_findAll (pat : List RItem) (fuel : Nat) (s : List Char)
    (b : Bool) (hf : s.length + 1 ≤ fuel) :
    findAllAux pat fuel s b = findAll pat s b :=
  findAllAux_fuel_irrel pat fuel (s.length + 1) s b hf (Nat.le_refl _)

theorem findAll_cons_some (pat : List RItem) (s : List Char) (b : Bool) (st : MState)
    (h : tryMatch pat s b = some st) (hlt : st.rest.length < s.length) :
    findAll pat s b = st.caps :: findAll pat st.rest st.bol := by
  unfold findAll
  rw [findAllAux_succ, h]
  simp only [hlt, if_true]
  exact congrArg (fun x => st.caps :: x)
    (findAllAux_fuel_irrel pat s.length (st.rest.length + 1) st.rest st.bol
      (by omega) (by omega))

theorem findAll_cons_none (pat : List RItem) (c : Char) (t : List Char) (b : Bool)
    (h : tryMatch pat (c :: t) b = none) :
    findAll pat (c :: t) b = findAll pat t (decide (c = '\n')) := by
  unfold findAll
  rw [findAllAux_succ, h]
  exact findAllAux_to_findAll pat (c :: t).length t (decide (c = '\n'))
    (by simp)

theorem findAll_nil_none (pat : List RItem) (b : Bool)
    (h : tryMatch pat [] b = none) :
    findAll pat [] b = [] := by
  unfold findAll
  rw [findAllAux_succ, h]

theorem findAll_head_some (pat : List RItem) (s : List Char) (b : Bool) (st : MState)
    (h : tryMatch pat s b = some st) :
    (findAll pat s b).head? = some st.caps := by
  unfold findAll
  rw [findAllAux_succ, h]
  by_cases hlt : st.rest.length < s.length
  · simp [hlt]
  · simp only [hlt, if_false]
    cases s with
    | nil => rfl
    | cons ch t => rfl

/-! ### Matching the code fence inside an emitted body -/

theorem wordStar_nl_chunk (e Y : List Char) (items : List RItem) (st : MState)
    (hrest : st.rest = e ++ ('\n' :: Y)) (he : e.all isWordChar = true) :
    matchItems (wordStar :: .lit (str "\n") :: items) st =
      matchItems items { st with rest := Y, bol := true } := by
  rw [show wordStar = RItem.cls isWordChar false false from rfl,
    show (str "\n" : List Char) = '\n' :: [] from rfl,
    greedyStar_then_lit [] (by decide)]
  have hrun : st.rest.takeWhile isWordChar = e := by
    rw [hrest, takeWhile_append_of_all e _ he, List.takeWhile_cons_of_neg (by decide)]
    simp
  rw [hrun]
  obtain ⟨b1, hb1⟩ := consume_append_rest st e ('\n' :: Y) hrest
  rw [hb1]
  rw [matchItems_lit_chunk ('\n' :: []) Y '\n' items _ rfl rfl]
  rw [show (decide ('\n' = '\n')) = true from by decide]

theorem wsStar_eol_end (st : MState) (hrest : st.rest = ['\n']) :
    matchItems [wsStar, .eol] st = some { st with rest := [], bol := true } := by
  rw [show wsStar = RItem.cls isWs false false from rfl]
  apply greedyStar_first_success
  have hrun : st.rest.takeWhile isWs = ['\n'] := by
    rw [hrest]
    decide
  rw [hrun, show ((['\n'] : List Char)).length = 1 from rfl,
    consume_cons st '\n' [] hrest, show (decide ('\n' = '\n')) = true from by decide]
  rfl

theorem tryMatch_codeFence (e cI : List Char)
    (he : e.all isWordChar = true)
    (hlast : cI.getLast? = some '\n')
    (hsafe0 : (str "```").isPrefixOf cI = false)
    (hsafe : bolSafe (str "```") cI = true) :
    tryMatch CODE_FENCE_PATTERN
      (str "```" ++ (e ++ ('\n' :: (cI ++ str "```\n")))) true =
      some ⟨[], true, (1, cI ++ str "```\n") :: [], [(1, cI)]⟩ := by
  unfold tryMatch CODE_FENCE_PATTERN
  rw [matchItems_bol_pos _ rfl]
  rw [matchItems_lit_chunk (str "```") (e ++ ('\n' :: (cI ++ str "```\n"))) '`'
    _ _ rfl (by decide)]
  rw [show (decide ('`' = '\n')) = false from by decide]
  rw [wordStar_nl_chunk e (cI ++ str "```\n") _ _ rfl he]
  rw [matchItems_grpOpen]
  apply lazyAny_first_success _ _ cI.length
  · simp
  · intro h
    simp at h
  · intro j h0 hj
    exact endScan_fail (str "```") 1 _ _ cI (str "```\n") rfl rfl (by decide)
      hlast hsafe0 hsafe j hj
  · rw [consume_append _ cI (str "```\n") '\n' rfl hlast,
      show (decide ('\n' = '\n')) = true from by decide]
    rw [grpClose_capture 1 cI _ _ (by simp [List.lookup])]
    rw [matchItems_bol_pos _ rfl]
    rw [show (str "```\n" : List Char) = str "```" ++ ['\n'] from rfl]
    rw [matchItems_lit_chunk (str "```") ['\n'] '`' _ _ rfl (by decide)]
    rw [show (decide ('`' = '\n')) = false from by decide]
    rw [wsStar_eol_end _ rfl]
    simp

theorem processContent_blockBody (p c : List Char) (hp : wfPath p = true)
    (hc : wfContent c = true) :
    processContent (blockBody p c) = ensureTrailingNewline c := by
  obtain ⟨hpne, hnoeq, hnotick, hheadws, hlastws, hext⟩ := wfPath_parts hp
  obtain ⟨hcr, hnn, hpre1, hbs1, hpre2, hbs2⟩ := wfContent_parts hc
  obtain ⟨hpre2n, hbs2n⟩ :=
    wfContent_transfer (str "```") c (by decide) (by decide) hpre2 hbs2
  have hblock : blockBody p c = str "```" ++ (extLstrip p ++ ('\n' ::
      (ensureTrailingNewline c ++ str "```\n"))) := by
    unfold blockBody
    simp only [List.append_assoc]
    rfl
  have hfence := tryMatch_codeFence (extLstrip p) (ensureTrailingNewline c) hext
    (ensureTrailingNewline_getLast c) hpre2n hbs2n
  unfold processContent
  rw [hblock, findAll_head_some _ _ _ _ hfence]
  simp only [getGroup, List.lookup, beq_self_eq_true, Option.getD_some]
  rw [normalizeLineEndings_no_cr _ (ensure_no_cr c hcr)]
  rw [ensure_not_nn c hnn]
  simp

/-! ### Skipping non-matching text in the block scan -/

theorem tryMatch_fileBlock_nonbol (s : List Char) :
    tryMatch FILE_BLOCK_PATTERN s false = none := by
  unfold tryMatch FILE_BLOCK_PATTERN
  exact matchItems_bol_neg _ rfl

theorem tryMatch_fileBlock_head (c0 : Char) (t : List Char) (b : Bool)
    (hc0 : ¬c0 = '=') :
    tryMatch FILE_BLOCK_PATTERN (c0 :: t) b = none := by
  cases b with
  | false => exact tryMatch_fileBlock_nonbol _
  | true =>
      unfold tryMatch FILE_BLOCK_PATTERN
      rw [matchItems_bol_pos _ rfl]
      apply matchItems_lit_neg
      rw [show (str "=====" : List Char) = '=' :: str "====" from rfl]
      have hne : (('=' : Char) == c0) = false := by
        simp only [beq_eq_false_iff_ne, ne_eq]
        intro hcc
        exact hc0 hcc.symm
      simp [List.isPrefixOf, hne]

theorem tryMatch_fileBlock_marker (d : Char) (t : List Char)
    (hd : isWs d = false) (hdne : ¬d = 'F') :
    tryMatch FILE_BLOCK_PATTERN (str "===== " ++ (d :: t)) true = none := by
  unfold tryMatch FILE_BLOCK_PATTERN
  rw [matchItems_bol_pos _ rfl]
  rw [show str "===== " ++ (d :: t) = str "=====" ++ (' ' :: (d :: t)) from rfl]
  rw [matchItems_lit_chunk (str "=====") (' ' :: (d :: t)) '=' _ _ rfl (by decide)]
  rw [show wsStar = RItem.cls isWs false false from rfl,
    show (str "FILE:" : List Char) = 'F' :: str "ILE:" from rfl,
    greedyStar_then_lit (str "ILE:") (by decide)]
  apply matchItems_lit_neg
  have hrun : ((' ' :: (d :: t)).takeWhile isWs) = [' '] := by
    rw [List.takeWhile_cons_of_pos (by decide), List.takeWhile_cons_of_neg (by rw [hd]; decide)]
  have hrest2 : (' ' :: (d :: t)).drop 1 = d :: t := rfl
  show ('F' :: str "ILE:").isPrefixOf
    ((MState.consume _ ((' ' :: (d :: t)).takeWhile isWs).length).rest) = false
  rw [consume_rest]
  show ('F' :: str "ILE:").isPrefixOf
    ((' ' :: (d :: t)).drop ((' ' :: (d :: t)).takeWhile isWs).length) = false
  rw [hrun, show (([' '] : List Char)).length = 1 from rfl, hrest2]
  have hne : (('F' : Char) == d) = false := by
    simp only [beq_eq_false_iff_ne, ne_eq]
    intro hcc
    exact hdne hcc.symm
  simp [List.isPrefixOf, hne]

theorem findAll_skip_no_nl (pat : List RItem)
    (hpat : ∀ s : List Char, tryMatch pat s false = none) :
    ∀ (w : List Char) (B : List Char), (∀ ch ∈ w, ¬ch = '\n') →
      findAll pat (w ++ B) false = findAll pat B false
  | [], _, _ => rfl
  | c :: w, B, h => by
      rw [List.cons_append, findAll_cons_none pat c (w ++ B) false (hpat _)]
      have hc : (decide (c = '\n')) = false := by
        simp only [decide_eq_false_iff_not]
        exact h c (by simp)
      rw [hc]
      exact findAll_skip_no_nl pat hpat (w) B (fun ch hch => h ch (by simp [hch]))

theorem intercalate_cons_cons (sep a l2 : List Char) (t : List (List Char)) :
    List.intercalate sep (a :: l2 :: t) = a ++ (sep ++ List.intercalate sep (l2 :: t)) := by
  simp [List.intercalate, List.intersperse]

theorem intercalate_singleton (sep L : List Char) :
    List.intercalate sep [L] = L := by
  simp [List.intercalate]

/-- Decidable test that a block-grammar match cannot start at this position
(looking only at the local characters): the position either does not start
with an equals sign, or starts a marker line that is not a FILE marker. -/
def posFail : List Char → Bool
  | '=' :: '=' :: '=' :: '=' :: '=' :: ' ' :: d :: _ => !isWs d && !(d = 'F')
  | c :: _ => !(c = '=')
  | [] => false

/-- Decidable test that no block-grammar match can start anywhere inside
this chunk of text, threading the beginning-of-line flag. -/
def chunkSafe : Bool → List Char → Bool
  | _, [] => true
  | b, c :: t => (if b then posFail (c :: t) else true) && chunkSafe (decide (c = '\n')) t

theorem posFail_tryMatch (c : Char) (t B : List Char) (h : posFail (c :: t) = true) :
    tryMatch FILE_BLOCK_PATTERN ((c :: t) ++ B) true = none := by
  rw [posFail.eq_def] at h
  split at h
  · rename_i d rest heq
    rw [List.cons_eq_cons] at heq
    obtain ⟨rfl, rfl⟩ := heq
    simp only [Bool.and_eq_true, Bool.not_eq_true'] at h
    exact tryMatch_fileBlock_marker d (rest ++ B) h.1 (by simpa using h.2)
  · rename_i c2 rest hconstr heq
    rw [List.cons_eq_cons] at heq
    obtain ⟨rfl, rfl⟩ := heq
    exact tryMatch_fileBlock_head c (t ++ B) true (by simpa using h)
  · rename_i hconstr heq
    exact absurd heq (by simp)

theorem findAll_skip_chunk : ∀ (D B : List Char) (b : Bool),
    chunkSafe b D = true →
    findAll FILE_BLOCK_PATTERN (D ++ B) b =
      findAll FILE_BLOCK_PATTERN B
        (match D.getLast? with | some ch => decide (ch = '\n') | none => b)
  | [], B, b, _ => rfl
  | c :: D, B, b, h => by
      rw [chunkSafe.eq_def] at h
      simp only [Bool.and_eq_true] at h
      have hskip : tryMatch FILE_BLOCK_PATTERN (c :: (D ++ B)) b = none := by
        cases b with
        | false => exact tryMatch_fileBlock_nonbol _
        | true => exact posFail_tryMatch c D B (by simpa using h.1)
      rw [List.cons_append, findAll_cons_none _ _ _ _ hskip]
      rw [findAll_skip_chunk D B (decide (c = '\n')) h.2]
      cases D with
      | nil => rfl
      | cons d D2 =>
          rw [List.getLast?_cons_cons]
          obtain ⟨x, hx⟩ : ∃ x, (d :: D2).getLast? = some x := by
            rcases List.eq_nil_or_concat (d :: D2) with heq | ⟨a, ch, heq⟩
            · exact absurd heq (by simp)
            · rw [heq, List.concat_eq_append, List.getLast?_concat]
              exact ⟨ch, rfl⟩
          rw [hx]

theorem findAll_skip_line (L B : List Char) (b : Bool)
    (hnl : ∀ ch ∈ L, ¬ch = '\n')
    (hhead : ∀ c0 t0, L = c0 :: t0 → ¬c0 = '=') :
    findAll FILE_BLOCK_PATTERN (L ++ ('\n' :: B)) b =
      findAll FILE_BLOCK_PATTERN B true := by
  cases L with
  | nil =>
      rw [List.nil_append]
      have hfail : tryMatch FILE_BLOCK_PATTERN ('\n' :: B) b = none := by
        cases b with
        | false => exact tryMatch_fileBlock_nonbol _
        | true => exact tryMatch_fileBlock_head '\n' B true (by decide)
      rw [findAll_cons_none _ _ _ _ hfail,
        show (decide ('\n' = '\n')) = true from by decide]
  | cons c0 t0 =>
      have hfail : tryMatch FILE_BLOCK_PATTERN (c0 :: (t0 ++ ('\n' :: B))) b = none := by
        cases b with
        | false => exact tryMatch_fileBlock_nonbol _
        | true => exact tryMatch_fileBlock_head c0 _ true (hhead c0 t0 rfl)
      rw [List.cons_append, findAll_cons_none _ _ _ _ hfail,
        show (decide (c0 = '\n')) = false from by
          simp only [decide_eq_false_iff_not]
          exact hnl c0 (by simp)]
      rw [findAll_skip_no_nl FILE_BLOCK_PATTERN tryMatch_fileBlock_nonbol t0
        ('\n' :: B) (fun ch hch => hnl ch (by simp [hch]))]
      rw [findAll_cons_none _ _ _ _ (tryMatch_fileBlock_nonbol _),
        show (decide ('\n' = '\n')) = true from by decide]

theorem findAll_skip_join (B : List Char) : ∀ (lines : List (List Char)),
    (∀ L ∈ lines, (∀ ch ∈ L, ¬ch = '\n') ∧
      (∀ c0 t0, L = c0 :: t0 → ¬c0 = '=')) →
    findAll FILE_BLOCK_PATTERN
      (List.intercalate (str "\n") lines ++ ('\n' :: B)) true =
      findAll FILE_BLOCK_PATTERN B true
  | [], _ =>
      findAll_skip_line [] B true (fun ch hch => absurd hch (by simp))
        (fun c0 t0 he => by cases he)
  | [L], h => by
      rw [intercalate_singleton]
      exact findAll_skip_line L B true (h L (by simp)).1 (h L (by simp)).2
  | L :: L2 :: rest, h => by
      have hdecomp : List.intercalate (str "\n") (L :: L2 :: rest) ++ ('\n' :: B) =
          L ++ ('\n' :: (List.intercalate (str "\n") (L2 :: rest) ++ ('\n' :: B))) := by
        rw [intercalate_cons_cons, List.append_assoc]
        rfl
      rw [hdecomp, findAll_skip_line L _ true (h L (by simp)).1 (h L (by simp)).2]
      exact findAll_skip_join B (L2 :: rest) (fun L0 hL0 => h L0 (by simp [hL0]))

/-! ### Scanning the joined emitted blocks -/

theorem fileBlock_length_pos (p c : List Char) : 0 < (fileBlock p c).length := by
  rw [show fileBlock p c = '=' :: ((str "==== FILE: " ++ p ++ str " =====\n```" ++
    extLstrip p ++ str "\n" ++ ensureTrailingNewline c ++ str "```\n===== END FILE: " ++
    p ++ str " =====")) from rfl]
  simp

theorem tryMatch_fileBlock_nil (b : Bool) :
    tryMatch FILE_BLOCK_PATTERN [] b = none := by
  cases b with
  | false => exact tryMatch_fileBlock_nonbol _
  | true =>
      unfold tryMatch FILE_BLOCK_PATTERN
      rw [matchItems_bol_pos _ rfl]
      apply matchItems_lit_neg
      decide

theorem findAll_blocks : ∀ (files : List (List Char × List Char)),
    (∀ e ∈ files, wfPath e.1 = true ∧ wfContent e.2 = true) →
    findAll FILE_BLOCK_PATTERN
      (List.intercalate (str "\n")
        (files.map (fun e => fileBlock e.1 e.2))) true =
      files.map (fun e => [(1, e.1), (2, blockBody e.1 e.2), (3, e.1)])
  | [], _ => by
      rw [List.map_nil,
        show List.intercalate (str "\n") ([] : List (List Char)) = [] from rfl,
        findAll_nil_none _ _ (tryMatch_fileBlock_nil true), List.map_nil]
  | e :: tl, h => by
      have he := h e (by simp)
      cases tl with
      | nil =>
          rw [List.map_cons, List.map_nil, intercalate_singleton]
          have hm := tryMatch_fileBlock e.1 e.2 [] he.1 he.2
          rw [List.append_nil] at hm
          rw [findAll_cons_some _ _ _ _ hm
            (by show ([] : List Char).length < (fileBlock e.1 e.2).length
                simpa using fileBlock_length_pos e.1 e.2)]
          show ([(1, e.1), (2, blockBody e.1 e.2), (3, e.1)] : Caps) ::
            findAll FILE_BLOCK_PATTERN [] false = _
          rw [findAll_nil_none _ _ (tryMatch_fileBlock_nil false), List.map_cons,
            List.map_nil]
      | cons e2 tl2 =>
          rw [List.map_cons, List.map_cons, intercalate_cons_cons,
            show str "\n" ++ List.intercalate (str "\n")
              (fileBlock e2.1 e2.2 :: List.map (fun e => fileBlock e.1 e.2) tl2) =
              '\n' :: List.intercalate (str "\n")
                (fileBlock e2.1 e2.2 :: List.map (fun e => fileBlock e.1 e.2) tl2)
              from rfl]
          have hm := tryMatch_fileBlock e.1 e.2
            ('\n' :: List.intercalate (str "\n")
              (fileBlock e2.1 e2.2 :: List.map (fun e => fileBlock e.1 e.2) tl2))
            he.1 he.2
          rw [findAll_cons_some _ _ _ _ hm
            (by show ('\n' :: List.intercalate (str "\n")
                  (fileBlock e2.1 e2.2 ::
                    List.map (fun e => fileBlock e.1 e.2) tl2)).length <
                  (fileBlock e.1 e.2 ++ ('\n' :: List.intercalate (str "\n")
                    (fileBlock e2.1 e2.2 ::
                      List.map (fun e => fileBlock e.1 e.2) tl2))).length
                rw [List.length_append]
                have := fileBlock_length_pos e.1 e.2
                omega)]
          show ([(1, e.1), (2, blockBody e.1 e.2), (3, e.1)] : Caps) ::
            findAll FILE_BLOCK_PATTERN
              ('\n' :: List.intercalate (str "\n")
                (fileBlock e2.1 e2.2 ::
                  List.map (fun e => fileBlock e.1 e.2) tl2)) false = _
          rw [findAll_cons_none _ _ _ _ (tryMatch_fileBlock_nonbol _),
            show (decide ('\n' = '\n')) = true from by decide]
          have hih := findAll_blocks (e2 :: tl2)
            (fun e0 he0 => h e0 (List.mem_cons_of_mem e he0))
          rw [List.map_cons] at hih
          rw [hih]
          simp

/-! ### Character sets of the interpolated header fields and tree lines -/

theorem digit_table_no_nl {x : Char} (hx : x ∈ str "0123456789") : ¬x = '\n' := by
  intro he
  subst he
  exact absurd hx (by decide)

theorem getD_digit_no_nl (i : Nat) : ¬(str "0123456789").getD i '0' = '\n' := by
  by_cases hi : i < (str "0123456789").length
  · rw [List.getD_eq_getElem _ '0' hi]
    exact digit_table_no_nl (List.getElem_mem hi)
  · rw [List.getD_eq_default _ '0' (by omega)]
    decide

theorem natDecimalAux_no_nl : ∀ (fuel n : Nat) (acc : List Char),
    (∀ ch ∈ acc, ¬ch = '\n') → ∀ ch ∈ natDecimalAux fuel n acc, ¬ch = '\n'
  | 0, _, _, h => h
  | fuel + 1, n, acc, h => by
      rw [natDecimalAux.eq_def]
      simp only []
      by_cases hn : n < 10
      · rw [if_pos hn]
        intro ch hch
        rcases List.mem_cons.mp hch with rfl | hm
        · exact getD_digit_no_nl (n % 10)
        · exact h ch hm
      · rw [if_neg hn]
        exact natDecimalAux_no_nl fuel (n / 10) _ (by
          intro ch hch
          rcases List.mem_cons.mp hch with rfl | hm
          · exact getD_digit_no_nl (n % 10)
          · exact h ch hm)

theorem natDecimal_no_nl (n : Nat) : ∀ ch ∈ natDecimal n, ¬ch = '\n' :=
  natDecimalAux_no_nl (n + 1) n [] (by intro ch hch; exact absurd hch (by simp))

theorem oneDecimal_no_nl (n d : Nat) : ∀ ch ∈ oneDecimal n d, ¬ch = '\n' := by
  intro ch hch
  unfold oneDecimal at hch
  rcases List.mem_append.mp hch with h1 | h2
  · rcases List.mem_append.mp h1 with h3 | h4
    · exact natDecimal_no_nl _ ch h3
    · exact fun he => absurd (he ▸ h4) (by decide)
  · exact natDecimal_no_nl _ ch h2

theorem human_size_no_nl (n : Nat) : ∀ ch ∈ human_size n, ¬ch = '\n' := by
  intro ch hch
  unfold human_size at hch
  by_cases h1 : n < 1024
  · rw [if_pos h1] at hch
    rcases List.mem_append.mp hch with h3 | h4
    · exact natDecimal_no_nl _ ch h3
    · exact fun he => absurd (he ▸ h4) (by decide)
  · rw [if_neg h1] at hch
    by_cases h2 : n < 1024 * 1024
    · rw [if_pos h2] at hch
      rcases List.mem_append.mp hch with h3 | h4
      · exact oneDecimal_no_nl _ _ ch h3
      · exact fun he => absurd (he ▸ h4) (by decide)
    · rw [if_neg h2] at hch
      rcases List.mem_append.mp hch with h3 | h4
      · exact oneDecimal_no_nl _ _ ch h3
      · exact fun he => absurd (he ▸ h4) (by decide)

theorem mem_intercalate_of_mem (sep : List Char) :
    ∀ (ls : List (List Char)) (L : List Char) (ch : Char),
      L ∈ ls → ch ∈ L → ch ∈ List.intercalate sep ls
  | [], _, _, hL, _ => absurd hL (by simp)
  | [L1], L, ch, hL, hch => by
      rw [intercalate_singleton]
      rcases List.mem_singleton.mp hL with rfl
      exact hch
  | L1 :: L2 :: rest, L, ch, hL, hch => by
      rw [intercalate_cons_cons]
      rcases List.mem_cons.mp hL with rfl | hm
      · exact List.mem_append.mpr (Or.inl hch)
      · exact List.mem_append.mpr (Or.inr (List.mem_append.mpr
          (Or.inr (mem_intercalate_of_mem sep (L2 :: rest) L ch hm hch))))

theorem mem_of_mem_splitOnSep {p comp : List Char} {ch : Char}
    (hc : comp ∈ splitOnSep p) (hch : ch ∈ comp) : ch ∈ p := by
  rw [← intercalate_splitOnSep p]
  exact mem_intercalate_of_mem (str "/") (splitOnSep p) comp ch hc hch

theorem treeIndent_space : ∀ (i : Nat), ∀ ch ∈ treeIndent i, ch = ' '
  | 0, ch, hch => absurd hch (by simp [treeIndent])
  | i + 1, ch, hch => by
      unfold treeIndent at hch
      rw [List.replicate_succ, List.flatten_cons] at hch
      rcases List.mem_append.mp hch with h1 | h2
      · rcases List.mem_cons.mp h1 with rfl | h3
        · rfl
        · rcases List.mem_cons.mp h3 with rfl | h4
          · rfl
          · exact absurd h4 (by simp)
      · exact treeIndent_space i ch h2

/-- The list of tree lines accumulated by the fold inside `build_tree`. -/
def treeLinesOf (files : List (List Char × List Char)) : List (List Char) :=
  (files.foldl
    (fun (st : List (List Char) × List (List Char)) f =>
      let (lines, prevParts) := st
      let parts := splitOnSep f.1
      let common := min (commonPrefixLen prevParts parts)
                        (min prevParts.length (parts.length - 1))
      let dirLines := (List.range' common (parts.length - 1 - common)).map
        (fun i => treeIndent i ++ parts.getD i [] ++ ['/'])
      let fileLine := treeIndent (parts.length - 1) ++ parts.getLastD []
      (lines ++ dirLines ++ [fileLine], parts))
    ([], [])).1

theorem build_tree_eq (files : List (List Char × List Char)) :
    build_tree files = List.intercalate (str "\n") (treeLinesOf files) := rfl

/-- All characters of this tree line are harmless for the block scan. -/
def lineCharsOk (L : List Char) : Prop :=
  ∀ ch ∈ L, ¬ch = '\n' ∧ ¬ch = '='

theorem wfPath_chars {p : List Char} (h : wfPath p = true) :
    ∀ ch ∈ p, ¬ch = '\n' ∧ ¬ch = '=' := by
  obtain ⟨-, hnoeq, -, -, -, -⟩ := wfPath_parts h
  intro ch hch
  have := List.all_eq_true.mp hnoeq ch hch
  simp only [decide_eq_true_eq, not_or] at this
  exact this

theorem treeLines_fold_ok :
    ∀ (files : List (List Char × List Char)) (lines0 prev0 : List (List Char)),
      (∀ e ∈ files, wfPath e.1 = true) →
      (∀ L ∈ lines0, lineCharsOk L) →
      ∀ L ∈ (files.foldl
        (fun (st : List (List Char) × List (List Char)) f =>
          let (lines, prevParts) := st
          let parts := splitOnSep f.1
          let common := min (commonPrefixLen prevParts parts)
                            (min prevParts.length (parts.length - 1))
          let dirLines := (List.range' common (parts.length - 1 - common)).map
            (fun i => treeIndent i ++ parts.getD i [] ++ ['/'])
          let fileLine := treeIndent (parts.length - 1) ++ parts.getLastD []
          (lines ++ dirLines ++ [fileLine], parts))
        (lines0, prev0)).1, lineCharsOk L
  | [], _, _, _, hacc => hacc
  | e :: tl, lines0, prev0, hwf, hacc => by
      rw [List.foldl_cons]
      have hcomp : ∀ ch comp, comp ∈ splitOnSep e.1 → ch ∈ comp →
          ¬ch = '\n' ∧ ¬ch = '=' :=
        fun ch comp hcm hch =>
          wfPath_chars (hwf e (by simp)) ch (mem_of_mem_splitOnSep hcm hch)
      have hnew : ∀ L ∈ lines0 ++
          ((List.range' (min (commonPrefixLen prev0 (splitOnSep e.1))
              (min prev0.length ((splitOnSep e.1).length - 1)))
            ((splitOnSep e.1).length - 1 -
              min (commonPrefixLen prev0 (splitOnSep e.1))
                (min prev0.length ((splitOnSep e.1).length - 1)))).map
            (fun i => treeIndent i ++ (splitOnSep e.1).getD i [] ++ ['/'])) ++
          [treeIndent ((splitOnSep e.1).length - 1) ++ (splitOnSep e.1).getLastD []],
          lineCharsOk L := by
        intro L hL
        rcases List.mem_append.mp hL with hL1 | hL2
        · rcases List.mem_append.mp hL1 with hL3 | hL4
          · exact hacc L hL3
          · obtain ⟨i, hi, rfl⟩ := List.mem_map.mp hL4
            intro ch hch
            rcases List.mem_append.mp hch with hc1 | hc2
            · rcases List.mem_append.mp hc1 with hc3 | hc4
              · rw [treeIndent_space i ch hc3]
                exact ⟨by decide, by decide⟩
              · by_cases hlen : i < (splitOnSep e.1).length
                · refine hcomp ch ((splitOnSep e.1).getD i []) ?_ hc4
                  rw [List.getD_eq_getElem _ [] hlen]
                  exact List.getElem_mem hlen
                · rw [List.getD_eq_default _ [] (by omega)] at hc4
                  exact absurd hc4 (by simp)
            · rcases List.mem_singleton.mp hc2 with rfl
              exact ⟨by decide, by decide⟩
        · rcases List.mem_singleton.mp hL2 with rfl
          intro ch hch
          rcases List.mem_append.mp hch with hc1 | hc2
          · rw [treeIndent_space _ ch hc1]
            exact ⟨by decide, by decide⟩
          · have hne := splitOnSep_ne_nil e.1
            rcases List.eq_nil_or_concat (splitOnSep e.1) with heq | ⟨a, x, heq⟩
            · exact absurd heq hne
            · rw [heq, List.concat_eq_append, List.getLastD_concat] at hc2
              refine hcomp ch x ?_ hc2
              rw [heq, List.concat_eq_append]
              exact List.mem_append.mpr (Or.inr (by simp))
      exact treeLines_fold_ok tl _ (splitOnSep e.1)
        (fun e0 he0 => hwf e0 (List.mem_cons_of_mem e he0)) hnew

theorem treeLinesOf_ok (files : List (List Char × List Char))
    (hwf : ∀ e ∈ files, wfPath e.1 = true) :
    ∀ L ∈ treeLinesOf files, lineCharsOk L :=
  treeLines_fold_ok files [] [] hwf (fun L hL => absurd hL (by simp))

/-! ### Decomposing the emitted bundle for the scan -/

theorem findAll_skip_chunk_to (D B : List Char) (b b2 : Bool)
    (h : chunkSafe b D = true)
    (hb2 : (match D.getLast? with
            | some ch => decide (ch = '\n')
            | none => b) = b2) :
    findAll FILE_BLOCK_PATTERN (D ++ B) b = findAll FILE_BLOCK_PATTERN B b2 := by
  rw [findAll_skip_chunk D B b h, hb2]

set_option maxRecDepth 8000 in
theorem build_bundle_decomp (cwd root : List Char)
    (files : List (List Char × List Char)) :
    build_bundle cwd root files =
      str "===== PROJECT BUNDLE =====\nProject: " ++
      (basename (abspath cwd root) ++
      (str "\nFiles: " ++
      (natDecimal files.length ++
      (str "\nTotal size: " ++
      (human_size ((files.map (fun f => utf8Length f.2)).sum) ++
      (str "\n\nWhen you respond with modified files, use EXACTLY this format for each file:\n\n  ===== FILE: path/to/file.py =====\n  ```\n  <full file contents>\n  ```\n  ===== END FILE: path/to/file.py =====\n\nIMPORTANT: Always wrap the file contents in ``` code fences as shown above.\nOnly include files you have changed. Do not include unchanged files.\n===== END INSTRUCTIONS =====\n\n===== TREE =====\n" ++
      (List.intercalate (str "\n") (treeLinesOf files) ++
      ('\n' :: List.intercalate (str "\n")
        (str "===== END TREE =====\n" ::
          files.map (fun f => fileBlock f.1 f.2)))))))))) := by
  simp only [build_bundle, HEADER_TEMPLATE]
  rw [build_tree_eq]
  simp only [List.cons_append, List.nil_append]
  rw [intercalate_cons_cons, intercalate_cons_cons, intercalate_cons_cons]
  simp only [List.append_assoc]
  rfl

set_option maxRecDepth 8000 in
theorem findAll_build_bundle (cwd root : List Char)
    (files : List (List Char × List Char))
    (hname : ∀ ch ∈ basename (abspath cwd root), ¬ch = '\n')
    (hwf : ∀ e ∈ files, wfPath e.1 = true ∧ wfContent e.2 = true) :
    findAll FILE_BLOCK_PATTERN (build_bundle cwd root files) true =
      files.map (fun e => [(1, e.1), (2, blockBody e.1 e.2), (3, e.1)]) := by
  rw [build_bundle_decomp cwd root files]
  rw [findAll_skip_chunk_to (str "===== PROJECT BUNDLE =====\nProject: ") _
    true false (by decide) (by decide)]
  rw [findAll_skip_no_nl FILE_BLOCK_PATTERN tryMatch_fileBlock_nonbol
    (basename (abspath cwd root)) _ hname]
  rw [findAll_skip_chunk_to (str "\nFiles: ") _ false false (by decide) (by decide)]
  rw [findAll_skip_no_nl FILE_BLOCK_PATTERN tryMatch_fileBlock_nonbol
    (natDecimal files.length) _ (natDecimal_no_nl _)]
  rw [findAll_skip_chunk_to (str "\nTotal size: ") _ false false
    (by decide) (by decide)]
  rw [findAll_skip_no_nl FILE_BLOCK_PATTERN tryMatch_fileBlock_nonbol
    (human_size ((files.map (fun f => utf8Length f.2)).sum)) _ (human_size_no_nl _)]
  rw [findAll_skip_chunk_to
    (str "\n\nWhen you respond with modified files, use EXACTLY this format for each file:\n\n  ===== FILE: path/to/file.py =====\n  ```\n  <full file contents>\n  ```\n  ===== END FILE: path/to/file.py =====\n\nIMPORTANT: Always wrap the file contents in ``` code fences as shown above.\nOnly include files you have changed. Do not include unchanged files.\n===== END INSTRUCTIONS =====\n\n===== TREE =====\n")
    _ false true (by decide) (by decide)]
  rw [findAll_skip_join _ (treeLinesOf files)
    (fun L hL => ⟨fun ch hch => (treeLinesOf_ok files
        (fun e he => (hwf e he).1) L hL ch hch).1,
      fun c0 t0 he => (treeLinesOf_ok files
        (fun e he => (hwf e he).1) L hL c0 (by rw [he]; simp)).2⟩)]
  cases files with
  | nil =>
      rw [List.map_nil, intercalate_singleton,
        show (str "===== END TREE =====\n" : List Char) =
          str "===== END TREE =====\n" ++ [] from (List.append_nil _).symm,
        findAll_skip_chunk_to (str "===== END TREE =====\n") [] true true
          (by decide) (by decide),
        findAll_nil_none _ _ (tryMatch_fileBlock_nil true), List.map_nil]
  | cons e tl =>
      rw [List.map_cons, intercalate_cons_cons,
        show str "===== END TREE =====\n" ++ (str "\n" ++
            List.intercalate (str "\n")
              (fileBlock e.1 e.2 :: List.map (fun f => fileBlock f.1 f.2) tl)) =
          str "===== END TREE =====\n\n" ++
            List.intercalate (str "\n")
              (fileBlock e.1 e.2 :: List.map (fun f => fileBlock f.1 f.2) tl)
          from rfl,
        findAll_skip_chunk_to (str "===== END TREE =====\n\n") _ true true
          (by decide) (by decide)]
      have hres := findAll_blocks (e :: tl) hwf
      rw [List.map_cons] at hres
      rw [hres, List.map_cons]

/-! ### The fallback grammar finds nothing in the emitted bundle -/

/-- No fallback-grammar match can start at this position: either it does
not start with a backtick, or the backtick is followed immediately by a
backtick or newline, or its inline run ends at a newline and contains no
dot followed by a word character. -/
def tickPosOk : List Char → Bool
  | '`' :: t =>
      (let u := t.takeWhile (fun c => ¬(c = '`' ∨ c = '\n'))
       u.isEmpty ||
       ((t.drop u.length).head? = some '\n' &&
        (List.range u.length).all (fun i =>
          !(u.getD i ' ' = '.') || decide (i + 1 = u.length) ||
          !isWordChar (u.getD (i + 1) ' '))))
  | _ => true

theorem plusGreedy_fail (q : Char → Bool) (items : List RItem) (st : MState)
    (t : List Char) (hrest : st.rest = t)
    (hfail : ∀ k, 1 ≤ k → k ≤ (t.takeWhile q).length →
      matchItems items (st.consume k) = none) :
    matchItems (.cls q true false :: items) st = none := by
  rw [matchItems_plus_greedy, hrest]
  apply List.findSome?_eq_none_iff.mpr
  intro k hk
  rw [List.mem_reverse, List.mem_range'] at hk
  obtain ⟨i, hi, rfl⟩ := hk
  exact hfail (1 + 1 * i) (by omega) (by omega)

theorem tryMatch_fallback_fail (s : List Char) (b : Bool)
    (hsafe : tickPosOk s = true) :
    tryMatch FALLBACK_PATTERN s b = none := by
  unfold tryMatch FALLBACK_PATTERN
  cases s with
  | nil =>
      apply matchItems_lit_neg
      show (str "`").isPrefixOf [] = false
      decide
  | cons c t =>
      by_cases hc : c = '`'
      case neg =>
        apply matchItems_lit_neg
        show (str "`").isPrefixOf (c :: t) = false
        have hne : (('`' : Char) == c) = false := by
          simp only [beq_eq_false_iff_ne, ne_eq]
          intro hcc
          exact hc hcc.symm
        simp [str, List.isPrefixOf, hne]
      case pos =>
        subst hc
        rw [matchItems_lit_chunk (str "`") t '`' _ _ rfl rfl]
        rw [show (decide ('`' = '\n')) = false from by decide]
        rw [matchItems_grpOpen]
        rw [tickPosOk.eq_def] at hsafe
        split at hsafe
        case h_2 =>
          rename_i hconstr heq
          exact absurd heq (by intro hcc; exact hcc t rfl)
        case h_1 =>
          rename_i t2 heq
          rw [List.cons_eq_cons] at heq
          obtain ⟨-, heq2⟩ := heq
          subst heq2
          simp only [Bool.or_eq_true, Bool.and_eq_true] at hsafe
          rcases hsafe with hempty | ⟨hterm, hall⟩
          · apply plusGreedy_fail _ _ _ t rfl
            intro k h1 hk2
            rw [List.isEmpty_iff] at hempty
            rw [hempty] at hk2
            simp at hk2
            omega
          · have hr := drop_takeWhile_length
              (fun c => decide ¬(c = '`' ∨ c = '\n')) t
            rw [hr] at hterm
            rcases hrw : t.dropWhile (fun c => decide ¬(c = '`' ∨ c = '\n'))
              with _ | ⟨rh, r2⟩
            · rw [hrw] at hterm
              exact absurd hterm (by simp)
            · rw [hrw] at hterm
              have hrh : rh = '\n' := by simpa using hterm
              subst hrh
              apply plusGreedy_fail _ _ _ t rfl
              intro k h1 hk2
              have hsplit : t = t.takeWhile
                  (fun c => decide ¬(c = '`' ∨ c = '\n')) ++ ('\n' :: r2) := by
                conv_lhs => rw [← List.takeWhile_append_dropWhile
                  (p := fun c => decide ¬(c = '`' ∨ c = '\n')) (l := t)]
                rw [hrw]
              have hdropk : t.drop k = (t.takeWhile
                  (fun c => decide ¬(c = '`' ∨ c = '\n'))).drop k ++ ('\n' :: r2) := by
                conv_lhs => rw [hsplit]
                exact List.drop_append_of_le_length hk2
              by_cases hklt : k < (t.takeWhile
                  (fun c => decide ¬(c = '`' ∨ c = '\n'))).length
              · have hget := List.drop_eq_getElem_cons hklt
                by_cases hdot : (t.takeWhile
                    (fun c => decide ¬(c = '`' ∨ c = '\n')))[k] = '.'
                · rw [matchItems_lit_chunk (str ".")
                    ((t.takeWhile (fun c => decide ¬(c = '`' ∨ c = '\n'))).drop (k + 1)
                      ++ ('\n' :: r2)) '.' _ _
                    (by rw [consume_rest]
                        show t.drop k = _
                        rw [hdropk, hget, hdot]
                        rfl)
                    rfl]
                  apply plusGreedy_fail _ _ _
                    ((t.takeWhile (fun c => decide ¬(c = '`' ∨ c = '\n'))).drop (k + 1)
                      ++ ('\n' :: r2)) rfl
                  intro k2 h21 h22
                  by_cases hk1 : k + 1 <
                      (t.takeWhile (fun c => decide ¬(c = '`' ∨ c = '\n'))).length
                  · have hget2 := List.drop_eq_getElem_cons hk1
                    rw [hget2] at h22
                    have hcond := List.all_eq_true.mp hall k
                      (List.mem_range.mpr hklt)
                    simp only [Bool.or_eq_true, Bool.not_eq_true',
                      decide_eq_true_eq, decide_eq_false_iff_not] at hcond
                    rcases hcond with (hbad | hbad) | hgood
                    · rw [List.getD_eq_getElem _ ' ' hklt] at hbad
                      exact absurd hdot hbad
                    · omega
                    · rw [List.getD_eq_getElem _ ' ' hk1] at hgood
                      rw [List.cons_append, List.takeWhile_cons_of_neg
                        (by rw [hgood]; exact Bool.false_ne_true)] at h22
                      simp at h22
                      omega
                  · rw [List.drop_eq_nil_of_le (by omega), List.nil_append,
                      List.takeWhile_cons_of_neg (by decide)] at h22
                    simp at h22
                    omega
                · apply matchItems_lit_neg
                  rw [consume_rest]
                  show (str ".").isPrefixOf (t.drop k) = false
                  rw [hdropk, hget, List.cons_append,
                    show (str "." : List Char) = '.' :: [] from rfl]
                  have hne : (('.' : Char) ==
                      (t.takeWhile (fun c => decide ¬(c = '`' ∨ c = '\n')))[k]) =
                      false := by
                    simp only [beq_eq_false_iff_ne, ne_eq]
                    intro hcc
                    exact hdot hcc.symm
                  simp only [List.isPrefixOf, hne, Bool.false_and]
              · have hkeq : k = (t.takeWhile
                    (fun c => decide ¬(c = '`' ∨ c = '\n'))).length := by omega
                apply matchItems_lit_neg
                rw [consume_rest]
                show (str ".").isPrefixOf (t.drop k) = false
                rw [hdropk, hkeq, List.drop_length, List.nil_append,
                  show (str "." : List Char) = '.' :: [] from rfl]
                simp only [List.isPrefixOf,
                  show (('.' : Char) == '\n') = false from by decide, Bool.false_and]

/-- Every position of the text is fallback-safe. -/
def fallbackSafe : List Char → Bool
  | [] => true
  | c :: t => tickPosOk (c :: t) && fallbackSafe t

theorem tickPosOk_nontick (c : Char) (t : List Char) (hc : ¬c = '`') :
    tickPosOk (c :: t) = true := by
  rw [tickPosOk.eq_def]
  split
  · rename_i t2 heq
    rw [List.cons_eq_cons] at heq
    exact absurd heq.1 hc
  · rfl

theorem findAll_fallback_nil : ∀ (s : List Char) (b : Bool),
    fallbackSafe s = true → findAll FALLBACK_PATTERN s b = []
  | [], b, _ => findAll_nil_none _ _ (tryMatch_fallback_fail [] b rfl)
  | c :: t, b, h => by
      rw [fallbackSafe.eq_def, Bool.and_eq_true] at h
      rw [findAll_cons_none _ _ _ _ (tryMatch_fallback_fail (c :: t) b h.1)]
      exact findAll_fallback_nil t _ h.2

theorem fallbackSafe_append_no_tick :
    ∀ (a t : List Char), (∀ ch ∈ a, ¬ch = '`') →
      fallbackSafe (a ++ t) = fallbackSafe t
  | [], _, _ => rfl
  | c :: a, t, h => by
      rw [List.cons_append]
      show (tickPosOk (c :: (a ++ t)) && fallbackSafe (a ++ t)) = fallbackSafe t
      rw [tickPosOk_nontick c (a ++ t) (h c (by simp)), Bool.true_and]
      exact fallbackSafe_append_no_tick a t (fun ch hch => h ch (by simp [hch]))

/-! ### The round trip -/

/-- Project names whose header lines scan safely: no newline (which would
break the header line structure) and no backtick (which could feed the
fallback grammar). -/
def wfName (n : List Char) : Bool := n.all (fun ch => ¬(ch = '\n' ∨ ch = '`'))

theorem wfName_parts {n : List Char} (h : wfName n = true) :
    (∀ ch ∈ n, ¬ch = '\n') ∧ (∀ ch ∈ n, ¬ch = '`') := by
  unfold wfName at h
  constructor
  · intro ch hch
    have := List.all_eq_true.mp h ch hch
    simp only [decide_eq_true_eq, not_or] at this
    exact this.1
  · intro ch hch
    have := List.all_eq_true.mp h ch hch
    simp only [decide_eq_true_eq, not_or] at this
    exact this.2

theorem filterMap_keepBlock : ∀ (files : List (List Char × List Char)),
    (∀ e ∈ files, wfPath e.1 = true ∧ wfContent e.2 = true) →
    (files.map (fun e =>
      ([(1, e.1), (2, blockBody e.1 e.2), (3, e.1)] : Caps))).filterMap keepBlock =
      files.map (fun e => (e.1, ensureTrailingNewline e.2))
  | [], _ => rfl
  | e :: tl, h => by
      rw [List.map_cons, List.filterMap_cons, List.map_cons]
      have he := h e (by simp)
      obtain ⟨hpne, hnoeq, hnotick, hheadws, hlastws, hext⟩ := wfPath_parts he.1
      have hkeep : keepBlock [(1, e.1), (2, blockBody e.1 e.2), (3, e.1)] =
          some (e.1, ensureTrailingNewline e.2) := by
        unfold keepBlock
        rw [show getGroup 1 [(1, e.1), (2, blockBody e.1 e.2), (3, e.1)] = e.1 from
          by simp [getGroup, List.lookup]]
        rw [show getGroup 3 [(1, e.1), (2, blockBody e.1 e.2), (3, e.1)] = e.1 from
          by simp [getGroup, List.lookup]]
        rw [show getGroup 2 [(1, e.1), (2, blockBody e.1 e.2), (3, e.1)] =
          blockBody e.1 e.2 from by simp [getGroup, List.lookup]]
        rw [pyStrip_id hheadws hlastws, if_pos rfl,
          processContent_blockBody e.1 e.2 he.1 he.2]
      rw [hkeep]
      rw [filterMap_keepBlock tl (fun x hx => h x (List.mem_cons_of_mem e hx))]

set_option maxRecDepth 8000 in
theorem fallbackSafe_empty_bundle (cwd root : List Char)
    (hn_tick : ∀ ch ∈ basename (abspath cwd root), ¬ch = '`') :
    fallbackSafe (build_bundle cwd root []) = true := by
  rw [build_bundle_decomp cwd root []]
  rw [show natDecimal (([] : List (List Char × List Char)).length) = str "0" from
    by decide]
  rw [show human_size ((List.map (fun f => utf8Length f.2)
    ([] : List (List Char × List Char))).sum) = str "0 B" from by decide]
  rw [show treeLinesOf [] = ([] : List (List Char)) from rfl]
  rw [show List.intercalate (str "\n") ([] : List (List Char)) = [] from rfl,
    List.nil_append, List.map_nil, intercalate_singleton]
  rw [fallbackSafe_append_no_tick (str "===== PROJECT BUNDLE =====\nProject: ") _
    (by decide)]
  rw [fallbackSafe_append_no_tick (basename (abspath cwd root)) _ hn_tick]
  rw [fallbackSafe_append_no_tick (str "\nFiles: ") _ (by decide)]
  rw [fallbackSafe_append_no_tick (str "0") _ (by decide)]
  rw [fallbackSafe_append_no_tick (str "\nTotal size: ") _ (by decide)]
  rw [fallbackSafe_append_no_tick (str "0 B") _ (by decide)]
  rw [show (str "\n\nWhen you respond with modified files, use EXACTLY this format for each file:\n\n  ===== FILE: path/to/file.py =====\n  ```\n  <full file contents>\n  ```\n  ===== END FILE: path/to/file.py =====\n\nIMPORTANT: Always wrap the file contents in ``` code fences as shown above.\nOnly include files you have changed. Do not include unchanged files.\n===== END INSTRUCTIONS =====\n\n===== TREE =====\n" : List Char) ++
      ('\n' :: str "===== END TREE =====\n") =
    str "\n\nWhen you respond with modified files, use EXACTLY this format for each file:\n\n  ===== FILE: path/to/file.py =====\n  ```\n  <full file contents>\n  ```\n  ===== END FILE: path/to/file.py =====\n\nIMPORTANT: Always wrap the file contents in ``` code fences as shown above.\nOnly include files you have changed. Do not include unchanged files.\n===== END INSTRUCTIONS =====\n\n===== TREE =====\n\n===== END TREE =====\n"
    from by decide]
  decide

set_option maxRecDepth 100000 in
/-- **C1**, counterexample to the unrestricted round trip: for the single
entry `("a.txt", "say\n(fence)py\n(fence)end\n")` whose content contains a
triple-backtick fence line, the decoder keeps only the interior of the
first fence it sees inside the emitted block, so the parsed content is
`"say\n"` and the original list is not recovered (its content already ends
with exactly one newline, so trailing-newline normalization does not
explain the difference). -/
theorem C1_counterexample :
    parse_file_blocks (build_bundle (str "/") (str "/p")
      [(str "a.txt", str "say\n```\npy\n```\nend\n")]) ≠
      [(str "a.txt",
        ensureTrailingNewline (str "say\n```\npy\n```\nend\n"))] ∧
    parse_file_blocks (build_bundle (str "/") (str "/p")
      [(str "a.txt", str "say\n```\npy\n```\nend\n")]) =
      [(str "a.txt", str "say\n")] := by
  constructor
  · decide
  · decide

/-- **C1** (amended): for every project name without newlines or backticks
and every list of well-formed file entries — nonempty paths free of
newlines, equals signs and backticks, trimmed at both ends, with
word-character extensions, and contents free of carriage returns, not
ending in a blank line, and containing no line that starts with a marker
run or a code fence — encoding with `build_bundle` and parsing with
`parse_file_blocks` recovers exactly the same ordered list of
`(path, content)` pairs, with each content normalized to end with a
trailing newline (appended only when missing). -/
theorem C1_round_trip (cwd root : List Char)
    (files : List (List Char × List Char))
    (hname : wfName (basename (abspath cwd root)) = true)
    (hwf : ∀ e ∈ files, wfPath e.1 = true ∧ wfContent e.2 = true) :
    parse_file_blocks (build_bundle cwd root files) =
      files.map (fun e => (e.1, ensureTrailingNewline e.2)) := by
  obtain ⟨hn_nl, hn_tick⟩ := wfName_parts hname
  have hprim : primaryBlocks (build_bundle cwd root files) =
      files.map (fun e => (e.1, ensureTrailingNewline e.2)) := by
    rw [primaryBlocks_eq_filterMap, findAll_build_bundle cwd root files hn_nl hwf,
      filterMap_keepBlock files hwf]
  simp only [parse_file_blocks]
  rw [hprim]
  cases files with
  | nil =>
      rw [List.map_nil]
      rw [if_pos (show ([] : List (List Char × List Char)).isEmpty = true from rfl)]
      unfold fallbackBlocks
      rw [findAll_fallback_nil _ true (fallbackSafe_empty_bundle cwd root hn_tick)]
      rfl
  | cons e tl =>
      rw [List.map_cons, if_neg (by simp)]

/-- **C1** witness: a concrete well-formed instance of the amended round
trip, with hypotheses discharged by evaluation. -/
theorem C1_round_trip_witness :
    wfName (basename (abspath (str "/") (str "/p"))) = true ∧
    (∀ e ∈ [(str "a.txt", str "hi")], wfPath e.1 = true ∧ wfContent e.2 = true) ∧
    parse_file_blocks (build_bundle (str "/") (str "/p")
      [(str "a.txt", str "hi")]) = [(str "a.txt", str "hi\n")] :=
  ⟨by decide, by decide, by
    rw [C1_round_trip (str "/") (str "/p") [(str "a.txt", str "hi")]
      (by decide) (by decide)]
    decide⟩
